import Mathlib

/-!
# Verification of the Dakosys episode-matching / list-reconciliation engine

Shallow embedding of the matching core of `app/anime_trakt_manager.py`:

* `normalize_episode_title`  (title normalizer),
* `generate_variations` / `find_best_anime_match`  (show resolution),
* the per-episode matching cascade and snapshot classification inside
  `add_episodes_to_trakt_list`  (episode matcher + list reconciler),
* the batched add loop with rate-limit retries.

Strings are modelled as `List Char` and Python string/regex primitives are
given executable ASCII-faithful definitions (Python's `\w`, `\s`, `str.lower`
are Unicode-aware; the model restricts their character classes to ASCII, which
is exact on every string the program manipulates in the claims below).  Scores
computed by `difflib.SequenceMatcher.ratio` are rational numbers; the matcher
functions take the similarity function as an explicit parameter `sim`, since
`difflib` is an external collaborator used only through its ratio value.
-/

namespace Dakosys

abbrev Str := List Char

/-- Characters of a string literal. -/
def strL (s : String) : Str := s.data

/-! ## Character classes (ASCII fragment of Python's `\w`, `\s`, `str.lower`) -/

/-- Python regex `\w` (word character), ASCII fragment: `[A-Za-z0-9_]`. -/
def isWordChar (c : Char) : Bool := c.isAlphanum || c = '_'

/-- Python regex `\s` (whitespace), ASCII fragment: space, `\t`, `\n`, `\r`,
`\x0b` (vertical tab), `\x0c` (form feed). -/
def isWs (c : Char) : Bool :=
  c = ' ' || c = '\t' || c = '\n' || c = '\r' || c = '\x0b' || c = '\x0c'

/-- Python regex `\d`, ASCII fragment: `[0-9]`. -/
def isDigitCh (c : Char) : Bool := c.isDigit

/-- ASCII case table used by `pyLowerChar` (Python `str.lower`, ASCII part). -/
def lowerTable : List (Char × Char) :=
  [('A','a'), ('B','b'), ('C','c'), ('D','d'), ('E','e'), ('F','f'), ('G','g'),
   ('H','h'), ('I','i'), ('J','j'), ('K','k'), ('L','l'), ('M','m'), ('N','n'),
   ('O','o'), ('P','p'), ('Q','q'), ('R','r'), ('S','s'), ('T','t'), ('U','u'),
   ('V','v'), ('W','w'), ('X','x'), ('Y','y'), ('Z','z')]

/-- Python `str.lower` on one character (ASCII fragment; other characters are
left unchanged, in particular the diacritic letters handled separately by
`generate_variations`). -/
def pyLowerChar (c : Char) : Char :=
  match lowerTable.find? (fun p => p.1 = c) with
  | some p => p.2
  | none => c

/-- Python `str.lower` on a string (ASCII fragment). -/
def lowerStr (s : Str) : Str := s.map pyLowerChar

/-! ## Python string primitives -/

/-- `pat` is a prefix of `s` (used for anchored `re.match` literals and
`str.startswith`). -/
def startsWithL : Str → Str → Bool
  | [], _ => true
  | _ :: _, [] => false
  | p :: ps, c :: cs => c = p && startsWithL ps cs

theorem dropWhileLengthLe (p : Char → Bool) (l : Str) :
    (l.dropWhile p).length ≤ l.length := by
  induction l with
  | nil => simp [List.dropWhile]
  | cons a as ih => by_cases h : p a <;> simp [List.dropWhile, h] <;> omega

theorem dropWhileLengthLt (p : Char → Bool) (l : Str) (h : l.takeWhile p ≠ []) :
    (l.dropWhile p).length < l.length := by
  cases l with
  | nil => simp [List.takeWhile] at h
  | cons a as =>
    by_cases hp : p a
    · simp only [List.dropWhile, hp, List.length_cons]
      have := dropWhileLengthLe p as
      omega
    · simp [List.takeWhile, hp] at h

/-- Python `str.find`: index of the first occurrence of `pat` in `s`
(`none` for Python's `-1`). -/
def pyFind (pat : Str) : Str → Option Nat
  | [] => if startsWithL pat [] then some 0 else none
  | c :: cs =>
    if startsWithL pat (c :: cs) then some 0
    else (pyFind pat cs).map (· + 1)

/-- Python `in` on strings: substring containment. -/
def strContains (s pat : Str) : Bool := (pyFind pat s).isSome

/-- Python `str.replace(pat, rep)` for a nonempty `pat`: replace all
occurrences, scanning left to right (non-overlapping).  The scanner recurses
structurally on a fuel bounded by the string length, which is always
sufficient since every step consumes at least one character. -/
def pyReplaceAux (pat rep : Str) : Nat → Str → Str
  | _, [] => []
  | 0, s => s
  | fuel + 1, c :: cs =>
    if startsWithL pat (c :: cs) ∧ pat ≠ [] then
      rep ++ pyReplaceAux pat rep fuel ((c :: cs).drop pat.length)
    else
      c :: pyReplaceAux pat rep fuel cs

def pyReplace (pat rep s : Str) : Str := pyReplaceAux pat rep s.length s

/-- Python `str.strip()`: remove leading and trailing whitespace. -/
def stripWs (s : Str) : Str :=
  ((s.dropWhile isWs).reverse.dropWhile isWs).reverse

/-- Python `str.split()` (no argument): split on runs of whitespace,
dropping empty pieces. -/
def pySplitAux : Nat → Str → List Str
  | _, [] => []
  | 0, s => [s]
  | fuel + 1, c :: cs =>
    if isWs c then pySplitAux fuel cs
    else (c :: cs.takeWhile (fun d => !isWs d)) ::
      pySplitAux fuel (cs.dropWhile (fun d => !isWs d))

def pySplit (s : Str) : List Str := pySplitAux s.length s

/-- Python `' '.join(ts)`. -/
def joinSp : List Str → Str
  | [] => []
  | [t] => t
  | t :: ts => t ++ ' ' :: joinSp ts

/-- Decimal digit characters of `n` (Python `str(n)` for a natural number). -/
def natToStr (n : Nat) : Str := Nat.toDigits 10 n

/-- Numeric value of a digit string (what Python's `int(...)` produces on the
digit group captured by a regex). -/
def natOfDigits (ds : Str) : Nat :=
  ds.foldl (fun acc c => acc * 10 + (c.toNat - '0'.toNat)) 0

/-! ## The regex rewrites of `normalize_episode_title`

Each `re.sub` of the source is an executable scanner with Python's
leftmost-match, non-overlapping, greedy-quantifier semantics.  For the
patterns at hand (`part\s+(\d+)`, `\((\d+)\)`, `\d+x\d+\s*`, `\(\d+\)\s*`)
greedy maximal-munch scanning is exact: each quantified class is followed by a
literal outside that class, so backtracking can never produce a different
match.  All scanners recurse on a fuel bounded below by the string length. -/

/-- `re.sub(r'[^\w\s]', ' ', s)`: non-word, non-space characters become a
space. -/
def subPunct (s : Str) : Str :=
  s.map (fun c => if isWordChar c || isWs c then c else ' ')

/-- Attempt to match `part\s+(\d+)` at the head of `s`; on success return the
captured digit group and the remainder after the match. -/
def partMatchAt (s : Str) : Option (Str × Str) :=
  if startsWithL (strL "part") s then
    let t := s.drop 4
    let ws := t.takeWhile isWs
    if ws ≠ [] then
      let t2 := t.dropWhile isWs
      let ds := t2.takeWhile isDigitCh
      if ds ≠ [] then some (ds, t2.dropWhile isDigitCh) else none
    else none
  else none

theorem partMatchAt_shrink {s d r : Str} (h : partMatchAt s = some (d, r)) :
    r.length < s.length := by
  unfold partMatchAt at h
  split at h
  · rename_i hpre
    simp only at h
    split at h
    · rename_i hws
      split at h
      · rename_i hds
        injection h with h'
        have hr : r = ((s.drop 4).dropWhile isWs).dropWhile isDigitCh := by
          have := congrArg Prod.snd h'
          simpa using this.symm
        have hdw : ((s.drop 4).dropWhile isWs).length < (s.drop 4).length :=
          dropWhileLengthLt isWs (s.drop 4) hws
        have hdd := dropWhileLengthLe isDigitCh ((s.drop 4).dropWhile isWs)
        have hlen : (s.drop 4).length ≤ s.length := by
          simp only [List.length_drop]; omega
        rw [hr]
        omega
      · exact absurd h (by simp)
    · exact absurd h (by simp)
  · exact absurd h (by simp)

/-- `re.sub(r'part\s+(\d+)', r'\1', s)`: rewrite `part<ws><digits>` to the
bare digits. -/
def partSubAux : Nat → Str → Str
  | _, [] => []
  | 0, s => s
  | fuel + 1, c :: cs =>
    match partMatchAt (c :: cs) with
    | some (d, r) => d ++ partSubAux fuel r
    | none => c :: partSubAux fuel cs

def partSub (s : Str) : Str := partSubAux s.length s

/-- Attempt to match `\((\d+)\)` at the head of `s`; return the digit group
and the remainder. -/
def parenNumMatchAt (s : Str) : Option (Str × Str) :=
  match s with
  | '(' :: t =>
    let ds := t.takeWhile isDigitCh
    if ds ≠ [] then
      match t.dropWhile isDigitCh with
      | ')' :: r => some (ds, r)
      | _ => none
    else none
  | _ => none

theorem parenNumMatchAt_shrink {s d r : Str} (h : parenNumMatchAt s = some (d, r)) :
    r.length < s.length := by
  unfold parenNumMatchAt at h
  split at h
  · rename_i t
    simp only at h
    split at h
    · rename_i hds
      split at h
      · rename_i r' hdrop
        injection h with h'
        have hr : r = r' := by
          have := congrArg Prod.snd h'
          simpa using this.symm
        have h1 : (t.dropWhile isDigitCh).length ≤ t.length :=
          dropWhileLengthLe isDigitCh t
        have h2 : (')' :: r').length = (t.dropWhile isDigitCh).length := by rw [hdrop]
        simp at h2
        simp [hr]
        omega
      · exact absurd h (by simp)
    · exact absurd h (by simp)
  · exact absurd h (by simp)

/-- `re.sub(r'\((\d+)\)', r'\1', s)`. -/
def parenNumSubAux : Nat → Str → Str
  | _, [] => []
  | 0, s => s
  | fuel + 1, c :: cs =>
    match parenNumMatchAt (c :: cs) with
    | some (d, r) => d ++ parenNumSubAux fuel r
    | none => c :: parenNumSubAux fuel cs

def parenNumSub (s : Str) : Str := parenNumSubAux s.length s

/-- Attempt to match `\d+x\d+\s*` at the head of `s`; return the remainder. -/
def dxdMatchAt (s : Str) : Option Str :=
  let d1 := s.takeWhile isDigitCh
  if d1 ≠ [] then
    match s.dropWhile isDigitCh with
    | 'x' :: t =>
      let d2 := t.takeWhile isDigitCh
      if d2 ≠ [] then some ((t.dropWhile isDigitCh).dropWhile isWs) else none
    | _ => none
  else none

theorem dxdMatchAt_shrink {s r : Str} (h : dxdMatchAt s = some r) :
    r.length < s.length := by
  unfold dxdMatchAt at h
  simp only at h
  split at h
  · rename_i hd1
    split at h
    · rename_i t hdrop
      split at h
      · injection h with h'
        have h1 : (t.dropWhile isDigitCh).length ≤ t.length :=
          dropWhileLengthLe isDigitCh t
        have h2 : ((t.dropWhile isDigitCh).dropWhile isWs).length ≤ (t.dropWhile isDigitCh).length :=
          dropWhileLengthLe isWs (t.dropWhile isDigitCh)
        have h3 : ('x' :: t).length = (s.dropWhile isDigitCh).length := by rw [hdrop]
        have h4 : (s.dropWhile isDigitCh).length ≤ s.length :=
          dropWhileLengthLe isDigitCh s
        simp at h3
        rw [← h']
        omega
      · exact absurd h (by simp)
    · exact absurd h (by simp)
  · exact absurd h (by simp)

/-- `re.sub(r'\d+x\d+\s*', '', s)`: delete embedded `NxNN` episode markers
(and trailing whitespace). -/
def dxdSubAux : Nat → Str → Str
  | _, [] => []
  | 0, s => s
  | fuel + 1, c :: cs =>
    match dxdMatchAt (c :: cs) with
    | some r => dxdSubAux fuel r
    | none => c :: dxdSubAux fuel cs

def dxdSub (s : Str) : Str := dxdSubAux s.length s

/-- Attempt to match `\(\d+\)\s*` at the head of `s`; return the remainder. -/
def parenDropMatchAt (s : Str) : Option Str :=
  match s with
  | '(' :: t =>
    let ds := t.takeWhile isDigitCh
    if ds ≠ [] then
      match t.dropWhile isDigitCh with
      | ')' :: r => some (r.dropWhile isWs)
      | _ => none
    else none
  | _ => none

theorem parenDropMatchAt_shrink {s r : Str} (h : parenDropMatchAt s = some r) :
    r.length < s.length := by
  unfold parenDropMatchAt at h
  split at h
  · rename_i t
    simp only at h
    split at h
    · rename_i hds
      split at h
      · rename_i r' hdrop
        injection h with h'
        have h1 : (t.dropWhile isDigitCh).length ≤ t.length :=
          dropWhileLengthLe isDigitCh t
        have h2 : (')' :: r').length = (t.dropWhile isDigitCh).length := by rw [hdrop]
        have h3 : (r'.dropWhile isWs).length ≤ r'.length :=
          dropWhileLengthLe isWs r'
        simp at h2
        rw [← h']
        simp
        omega
      · exact absurd h (by simp)
    · exact absurd h (by simp)
  · exact absurd h (by simp)

/-- `re.sub(r'\(\d+\)\s*', '', s)`. -/
def parenDropSubAux : Nat → Str → Str
  | _, [] => []
  | 0, s => s
  | fuel + 1, c :: cs =>
    match parenDropMatchAt (c :: cs) with
    | some r => parenDropSubAux fuel r
    | none => c :: parenDropSubAux fuel cs

def parenDropSub (s : Str) : Str := parenDropSubAux s.length s

/-- `re.sub(r'\b' ++ w ++ r'\b', '', s)` for a word `w` consisting only of
word characters: since `\b` demands a non-word neighbour on both sides and the
pattern itself is all word characters, the matches are exactly the maximal
word-character runs equal to `w`, and the substitution deletes those runs
(the flanking non-word characters are not part of the match). -/
def dropWordRunAux (w : Str) : Nat → Str → Str
  | _, [] => []
  | 0, s => s
  | fuel + 1, c :: cs =>
    if isWordChar c then
      let run := c :: cs.takeWhile isWordChar
      let rest := cs.dropWhile isWordChar
      (if run = w then [] else run) ++ dropWordRunAux w fuel rest
    else c :: dropWordRunAux w fuel cs

def dropWordRun (w s : Str) : Str := dropWordRunAux w s.length s

/-- `re.sub(r'\s+', ' ', s)`: collapse every whitespace run to one space. -/
def collapseWsAux : Nat → Str → Str
  | _, [] => []
  | 0, s => s
  | fuel + 1, c :: cs =>
    if isWs c then ' ' :: collapseWsAux fuel (cs.dropWhile isWs)
    else c :: collapseWsAux fuel cs

def collapseWs (s : Str) : Str := collapseWsAux s.length s

/-- `normalize_episode_title` (lines 333–360): strip punctuation to spaces and
lower-case; rewrite `part N` and `(N)` to `N`; delete `NxNN` and `(NN)`
markers; delete the stop-words `episode`, `ep`, `the`, `and` as whole words;
collapse whitespace and strip.  (The two parenthesis rules run after every
parenthesis has already been replaced by a space, so they never fire.) -/
def normalizeTitle (title : Str) : Str :=
  let t1 := lowerStr (subPunct title)
  let t2 := partSub t1
  let t3 := parenNumSub t2
  let t4 := dxdSub t3
  let t5 := parenDropSub t4
  let t6 := dropWordRun (strL "and")
    (dropWordRun (strL "the") (dropWordRun (strL "ep") (dropWordRun (strL "episode") t5)))
  stripWs (collapseWs t6)


/-! ## `generate_variations` (lines 1196–1293) -/

/-- `title.lower().replace('ū', 'u').replace('ō', 'o')` — the cleaned form
used both by `generate_variations` and by step 1 of `find_best_anime_match`. -/
def cleanOf (title : Str) : Str :=
  pyReplace (strL "ō") (strL "o") (pyReplace (strL "ū") (strL "u") (lowerStr title))

/-- The fixed `sequel_indicators` table (the second and third entries are
byte-identical in the source). -/
def sequelIndicators : List Str :=
  [strL " shippuden", strL " shippūden", strL " shippūden",
   strL " boruto", strL ": boruto",
   strL " next generations", strL " the next generation",
   strL ": brotherhood", strL " brotherhood",
   strL " season 2", strL " 2nd season", strL " second season",
   strL " part 2", strL " part ii"]

/-- The fixed `common_bases` table guarding the first-word variation. -/
def commonBases : List Str :=
  [strL "naruto", strL "boruto", strL "dragon", strL "one", strL "my",
   strL "attack", strL "demon"]

/-- The sequel-detection loop: the first indicator contained in the cleaned
title, together with `clean_title.find(indicator)`. -/
def findIndicator : List Str → Str → Option (Str × Nat)
  | [], _ => none
  | ind :: rest, clean =>
    match pyFind ind clean with
    | some i => some (ind, i)
    | none => findIndicator rest clean

/-- `base_anime = clean_title[:base_idx].strip()` for the matched indicator. -/
def baseAnimeOf (clean : Str) : Str :=
  match findIndicator sequelIndicators clean with
  | some (_, idx) => stripWs (clean.take idx)
  | none => clean

/-- `sequel_name = clean_title.replace(':', ' ').replace('  ', ' ').strip()`. -/
def sequelNameOf (clean : Str) : Str :=
  stripWs (pyReplace (strL "  ") (strL " ") (pyReplace (strL ":") (strL " ") clean))

/-- The article-stripping loop producing `simplified`: sequentially delete the
whole words `the`, `a`, `an`, `of`, `and`, then collapse whitespace and
strip. -/
def articleStrip (clean : Str) : Str :=
  stripWs (collapseWs (dropWordRun (strL "and") (dropWordRun (strL "of")
    (dropWordRun (strL "an") (dropWordRun (strL "a") (dropWordRun (strL "the") clean))))))

/-- The stop list of the `key_words` comprehension. -/
def keyStop : List Str :=
  [strL "with", strL "from", strL "that", strL "this", strL "what"]

/-- `key_words = [w for w in clean_title.split() if len(w) > 3 and w not in keyStop]`. -/
def keyWordsOf (clean : Str) : List Str :=
  (pySplit clean).filter (fun w => decide (3 < w.length) && decide (w ∉ keyStop))

/-- The `unique_variations` loop: keep first occurrences, dropping falsy
(empty) strings. -/
def dedupKeep (l : List Str) : List Str :=
  l.foldl (fun acc v => if v ≠ [] ∧ v ∉ acc then acc ++ [v] else acc) []

/-- `generate_variations(title)` (lines 1196–1293).  The bookkeeping fields
(`best_variation`, logging) are omitted; every appended string and every
branch condition mirrors the source. -/
def generateVariations (title : Str) : List Str :=
  let clean := cleanOf title
  let indFound := findIndicator sequelIndicators clean
  let isSequel := indFound.isSome
  -- sequel branch: variations == [clean] here, so insert(1, ·) appends
  let vars1 :=
    match indFound with
    | some _ =>
      let sn := sequelNameOf clean
      if sn ≠ clean ∧ sn ∉ [clean] then [clean, sn] else [clean]
    | none => [clean]
  -- non-sequel branch: colon variations and word-prefix variations
  let vars2 :=
    if isSequel then vars1
    else
      let colonVars :=
        match pyFind (strL ":") clean with
        | some i =>
          [stripWs (clean.take i), stripWs (clean.drop (i + 1)),
           stripWs (pyReplace (strL ":") (strL " ") clean),
           stripWs (pyReplace (strL ":") (strL "") clean)]
        | none => []
      let ws := pySplit clean
      let threeW := if ws.length ≥ 3 then [joinSp (ws.take 3)] else []
      let twoW := if ws.length ≥ 2 then [joinSp (ws.take 2)] else []
      let oneW :=
        match ws with
        | w :: _ => if w ∉ commonBases then [w] else []
        | [] => []
      vars1 ++ colonVars ++ threeW ++ twoW ++ oneW
  let simplified := articleStrip clean
  let vars3 :=
    if simplified ≠ clean ∧ simplified ∉ vars2 then vars2 ++ [simplified]
    else vars2
  let kw := keyWordsOf clean
  let vars4 :=
    if kw ≠ [] ∧ joinSp kw ≠ clean then vars3 ++ [joinSp kw] else vars3
  let uniq := dedupKeep vars4
  -- for sequels, force the full clean title to the front
  if isSequel ∧ clean ∉ uniq.take 1 then
    clean :: (if clean ∈ uniq then uniq.erase clean else uniq)
  else uniq

/-! ## `find_best_anime_match` (lines 1295–1413)

The similarity function (`difflib.SequenceMatcher(...).ratio()`) is passed in
as `sim`; scores are rationals.  A stable insertion sort models Python's
stable `sorted(..., reverse=True)` / `list.sort(..., reverse=True)`: an
element is placed before the first strictly-smaller element, so elements with
equal keys keep their original relative order, exactly as in Python. -/

def ordInsertBy (gt : α → α → Bool) (x : α) : List α → List α
  | [] => [x]
  | y :: ys => if gt x y then x :: y :: ys else y :: ordInsertBy gt x ys

def stableSortBy (gt : α → α → Bool) (l : List α) : List α :=
  l.foldl (fun acc x => ordInsertBy gt x acc) []

/-- Step 2 inner guard: some other candidate display name strictly contains
this one and scores above 0.8 against the lowered library title. -/
def longerAltExists (sim : Str → Str → ℚ) (lowerPlex : Str)
    (aflDisplay : List (Str × Str)) (disp : Str) : Bool :=
  aflDisplay.any (fun q =>
    decide (disp ≠ q.2) && strContains q.2 disp && decide (sim lowerPlex q.2 > 8/10))

/-- Step 2 scan over one variation: first candidate whose display form equals
the variation and has no longer plausible alternative. -/
def step2Cands (sim : Str → Str → ℚ) (lowerPlex : Str)
    (aflDisplay : List (Str × Str)) (v : Str) : List (Str × Str) → Option Str
  | [] => none
  | p :: rest =>
    if v = p.2 ∧ ¬ longerAltExists sim lowerPlex aflDisplay p.2 then some p.1
    else step2Cands sim lowerPlex aflDisplay v rest

/-- Step 2: iterate variations from longest to shortest, scanning all
candidates for an exact display-name equality. -/
def step2Scan (sim : Str → Str → ℚ) (lowerPlex : Str)
    (aflDisplay : List (Str × Str)) : List Str → Option Str
  | [] => none
  | v :: vs =>
    match step2Cands sim lowerPlex aflDisplay v aflDisplay with
    | some n => some n
    | none => step2Scan sim lowerPlex aflDisplay vs

/-- Step 3 per-candidate fold: the best score of `disp` across all
variations (word-subset bonus capped at 0.99, else the raw ratio). -/
def bestScoreFor (sim : Str → Str → ℚ) (disp : Str) (vars : List Str) : ℚ :=
  vars.foldl (fun best v =>
    let aflW := (pySplit disp).dedup
    let titleW := (pySplit v).dedup
    let common := aflW.filter (fun w => titleW.contains w)
    let isSubsetMatch := common.length ≥ 2 ∧
      (aflW.all (fun w => titleW.contains w) ∨ titleW.all (fun w => aflW.contains w))
    let similarity := sim disp v
    if isSubsetMatch ∧ common.length > 1 then
      let wordBonus := min (3/10 : ℚ) (common.length * (1/10 : ℚ))
      let extra : ℚ := if (pySplit v).length ≥ 2 ∧ aflW.length ≥ 2 then 1/10 else 0
      let adjusted := min (99/100 : ℚ) (similarity + wordBonus + extra)
      if adjusted > best then adjusted else best
    else if similarity > best then similarity else best) 0

/-- `find_best_anime_match(plex_title, all_afl_shows)` (lines 1295–1413):
tier 1 exact full-title match, tier 2 exact variation match with the
longer-alternative guard, tier 3 scored matching with acceptance threshold
`best_score >= 0.7` and a stable descending sort. -/
def findBestAnimeMatch (sim : Str → Str → ℚ) (plexTitle : Str)
    (allShows : List Str) : Option Str :=
  let vars := generateVariations plexTitle
  let aflDisplay := allShows.map (fun n => (n, pyReplace (strL "-") (strL " ") n))
  let normalizedFull := cleanOf plexTitle
  match aflDisplay.find? (fun p => decide (cleanOf p.2 = normalizedFull)) with
  | some p => some p.1
  | none =>
    let varsByLen := stableSortBy (fun a b => decide (b.length < a.length)) vars
    match step2Scan sim (lowerStr plexTitle) aflDisplay varsByLen with
    | some n => some n
    | none =>
      let potentials := aflDisplay.filterMap (fun p =>
        let b := bestScoreFor sim p.2 vars
        if b ≥ 7/10 then some (p.1, b) else none)
      let sorted := stableSortBy (fun a b => decide (b.2 < a.2)) potentials
      sorted.head?.map (fun q => q.1)


/-! ## Data model of `add_episodes_to_trakt_list` (lines 584–1000)

`RawEp`/`SeasonData` mirror the season metadata fetched from the catalog
service; `EpInfo` is the value stored in the two lookup dictionaries;
`ScrapedEp` is one desired episode from the scraper.  Dictionaries are
association lists with Python `dict` semantics: inserting an existing key
updates it in place, iteration follows insertion order.  Option values model
Python's `dict.get` results, and `0`/`none`/empty string are falsy exactly
where the source tests truthiness. -/

structure RawEp where
  number : Option Nat
  numberAbs : Option Nat
  title : Str
  traktId : Option Nat
deriving DecidableEq

structure SeasonData where
  number : Option Nat
  episodes : List RawEp
deriving DecidableEq

structure EpInfo where
  season : Option Nat
  episode : Option Nat
  traktId : Nat
deriving DecidableEq

structure ScrapedEp where
  number : Str
  name : Str
deriving DecidableEq

inductive Mode where
  | number
  | title
  | hybrid
deriving DecidableEq

/-- Python `dict` insertion: update in place if the key exists (keeping its
position), else append. -/
def dictInsert : List (Str × EpInfo) → Str → EpInfo → List (Str × EpInfo)
  | [], k, v => [(k, v)]
  | (k', v') :: rest, k, v =>
    if k' = k then (k', v) :: rest else (k', v') :: dictInsert rest k v

/-- Python `dict` lookup (`d.get(k)` / `k in d`). -/
def dictGet (d : List (Str × α)) (k : Str) : Option α :=
  (d.find? (fun p => decide (p.1 = k))).map (fun p => p.2)

/-- The title-lookup dictionary (lines 699–723): for each episode with a
nonempty title and a truthy trakt id, store the lowercased title, and also its
normalized form when different. -/
def buildByTitle (seasons : List SeasonData) : List (Str × EpInfo) :=
  seasons.foldl (fun d sd =>
    sd.episodes.foldl (fun d ep =>
      let title := lowerStr ep.title
      if title ≠ [] then
        match ep.traktId with
        | some tid =>
          if tid ≠ 0 then
            let d1 := dictInsert d title ⟨sd.number, ep.number, tid⟩
            let norm := normalizeTitle title
            if norm ≠ title then dictInsert d1 norm ⟨sd.number, ep.number, tid⟩ else d1
          else d
        | none => d
      else d) d) []

/-- The absolute-number dictionary (lines 725–734), keyed by `str(abs_num)`.
(The source builds both dictionaries in one pass over the seasons; they are
independent, so separate folds build identical tables.) -/
def buildByNumber (seasons : List SeasonData) : List (Str × EpInfo) :=
  seasons.foldl (fun d sd =>
    sd.episodes.foldl (fun d ep =>
      match ep.numberAbs with
      | some a =>
        if a ≠ 0 then
          match ep.traktId with
          | some tid =>
            if tid ≠ 0 then dictInsert d (natToStr a) ⟨sd.number, ep.number, tid⟩ else d
          | none => d
        else d
      | none => d) d) []

/-- `handle_special_anime_titles` (lines 362–382): for `Stage/Turn/Final Turn`
titles containing `" - "`, the episode name becomes the part after the first
`" - "`, stripped. -/
def handleSpecial (ep : ScrapedEp) : ScrapedEp :=
  if (startsWithL (strL "Stage ") ep.name ∨ startsWithL (strL "Turn ") ep.name ∨
      startsWithL (strL "Final Turn") ep.name) ∧ strContains ep.name (strL " - ") then
    match pyFind (strL " - ") ep.name with
    | some i => { ep with name := stripWs (ep.name.drop (i + 3)) }
    | none => ep
  else ep

/-- The number-matching lookup (lines 759–775): direct key, then the key with
all non-digits removed (`re.sub(r'\D', '', n)`). -/
def numberLookup (byNumber : List (Str × EpInfo)) (num : Str) : Option EpInfo :=
  match dictGet byNumber num with
  | some d => some d
  | none => dictGet byNumber (num.filter isDigitCh)

/-- The `title_mappings` substitution (lines 793–805): a truthy
`special_matches` entry is lowercased and a literal `"episode: "` prefix
removed. -/
def mappedTitleOf (specialMatches : List (Str × Str)) (epTitle : Str) : Str :=
  match dictGet specialMatches epTitle with
  | some sm =>
    if sm ≠ [] then
      let m := lowerStr sm
      if startsWithL (strL "episode: ") m then m.drop 9 else m
    else epTitle
  | none => epTitle

/-- `re.match(r'<pre>(\d+)(?:\s*-\s*)?(.+)?', name)` for `pre` in
`"Stage "`, `"Turn "`: the captured number and the optional trailing group.
The optional dash group consumes surrounding whitespace only when a dash is
present (greedy matching commits; with both groups optional no backtracking
can occur). -/
def numDashPattern (pre : Str) (s : Str) : Option (Nat × Option Str) :=
  if startsWithL pre s then
    let t := s.drop pre.length
    let ds := t.takeWhile isDigitCh
    if ds ≠ [] then
      let rest := t.dropWhile isDigitCh
      let rest2 :=
        match rest.dropWhile isWs with
        | '-' :: r => r.dropWhile isWs
        | _ => rest
      some (natOfDigits ds, if rest2 ≠ [] then some rest2 else none)
    else none
  else none

/-- `re.match(r'Final Turn(?:\s*-\s*)?(.+)?', name)`. -/
def finalTurnPattern (s : Str) : Option (Option Str) :=
  if startsWithL (strL "Final Turn") s then
    let rest := s.drop 10
    let rest2 :=
      match rest.dropWhile isWs with
      | '-' :: r => r.dropWhile isWs
      | _ => rest
    some (if rest2 ≠ [] then some rest2 else none)
  else none

/-- The Code Geass pattern extraction (lines 841–859): returns
`(ep_num, pure_title, season)`. -/
def geassParse (name : Str) : Option (Nat × Str × Nat) :=
  match numDashPattern (strL "Stage ") name with
  | some (n, g2) =>
    some (n, (match g2 with | some p => p | none => strL "Episode " ++ natToStr n), 1)
  | none =>
    match numDashPattern (strL "Turn ") name with
    | some (n, g2) =>
      some (n, (match g2 with | some p => p | none => strL "Episode " ++ natToStr n), 2)
    | none =>
      match finalTurnPattern name with
      | some g1 => some (25, (match g1 with | some p => p | none => strL "Re;"), 2)
      | none => none

/-- Inner episode scan of the Geass season/episode matching (lines 865–875):
the first episode with the wanted number whose truthy trakt id is *not*
already in the snapshot; entries whose id is falsy or already present are
passed over without breaking. -/
def geassEpScan (existing : List Nat) (epNum : Nat) : List RawEp → Option Nat
  | [] => none
  | ed :: rest =>
    if ed.number = some epNum then
      match ed.traktId with
      | some tid =>
        if tid ≠ 0 ∧ tid ∉ existing then some tid
        else geassEpScan existing epNum rest
      | none => geassEpScan existing epNum rest
    else geassEpScan existing epNum rest

/-- Outer season scan (lines 863–877): seasons with the wanted number are
scanned in order until a hit breaks out. -/
def geassSeasonScan (existing : List Nat) (seasonNum epNum : Nat) :
    List SeasonData → Option Nat
  | [] => none
  | sd :: rest =>
    if sd.number = some seasonNum then
      match geassEpScan existing epNum sd.episodes with
      | some tid => some tid
      | none => geassSeasonScan existing seasonNum epNum rest
    else geassSeasonScan existing seasonNum epNum rest

/-- Geass pure-title scan (lines 880–892): iterate the title dictionary in
insertion order; on a key equal to the normalized or lowercased pure title
whose id is not in the snapshot, break with that id; a key whose id is
already present is passed over without being recorded. -/
def geassTitleScan (existing : List Nat) (normPure lowerPure : Str) :
    List (Str × EpInfo) → Option Nat
  | [] => none
  | (k, info) :: rest =>
    if normPure = k ∨ lowerPure = k then
      if info.traktId ∉ existing then some info.traktId
      else geassTitleScan existing normPure lowerPure rest
    else geassTitleScan existing normPure lowerPure rest

/-- The fuzzy fallback fold (lines 894–904): best key with
`sim normalized_title key` strictly above the running best, which starts at
the 0.85 threshold.  (The source iterates `episode_by_title.keys()` and then
looks the winner up again; keys are unique, so folding over the pairs is the
same.) -/
def fuzzyBest (sim : Str → Str → ℚ) (normTitle : Str) :
    List (Str × EpInfo) → Option (Str × EpInfo) × ℚ :=
  fun d => d.foldl (fun best p =>
    let s := sim normTitle p.1
    if s > best.2 then (some p, s) else best) (none, 85/100)

/-- The result of processing one desired episode: appended to
`episodes_to_add`, to `skipped_episodes`, or to `failed_episodes`.
`skippedO` additionally records the trakt id whose snapshot membership caused
the skip (the source appends only the identifier; projecting the second field
away recovers the source lists exactly). -/
inductive EpOutcome where
  | addedO (id : Nat) (name : Str)
  | skippedO (id : Nat) (ident : Str)
  | failedO (ep : ScrapedEp)
deriving DecidableEq

/-- The snapshot classification applied by every matching tier
(`if trakt_id not in existing_trakt_ids: episodes_to_add.append(...) else:
skipped_episodes.append(ident)`). -/
def classifySnap (existing : List Nat) (id : Nat) (name ident : Str) : EpOutcome :=
  if id ∉ existing then .addedO id name else .skippedO id ident

/-- The number-matching tier (lines 757–786), active in `number`/`hybrid`
mode; `none` when the mode excludes it or the lookup misses. -/
def numberBranch (mode : Mode) (byNumber : List (Str × EpInfo)) (existing : List Nat)
    (ep : ScrapedEp) : Option EpOutcome :=
  if mode = Mode.number ∨ mode = Mode.hybrid then
    match numberLookup byNumber ep.number with
    | some d => some (classifySnap existing d.traktId ep.name ep.number)
    | none => none
  else none

/-- The special-pattern tier (lines 836–892): active only for the special
anime; number-based season scan first, then the pure-title scan.  Returns the
id to append (the tier adds without ever skipping). -/
def geassBranch (sa : Bool) (seasons : List SeasonData) (byTitle : List (Str × EpInfo))
    (existing : List Nat) (name : Str) : Option Nat :=
  if sa then
    match geassParse name with
    | some (n, p, seasonNum) =>
      match (if n ≠ 0 then geassSeasonScan existing seasonNum n seasons else none) with
      | some tid => some tid
      | none =>
        if p ≠ [] then geassTitleScan existing (normalizeTitle p) (lowerStr p) byTitle
        else none
    | none => none
  else none

/-- The title-matching cascade (lines 788–920): direct lookup, normalized
lookup, special pattern, fuzzy fallback, and the failure record.  Every
episode that reaches this branch receives exactly one record. -/
def titleBranch (sa : Bool) (specialMatches : List (Str × Str))
    (byTitle : List (Str × EpInfo)) (seasons : List SeasonData)
    (existing : List Nat) (sim : Str → Str → ℚ) (ep : ScrapedEp) : EpOutcome :=
  let epTitle := lowerStr ep.name
  let mapped := mappedTitleOf specialMatches epTitle
  match dictGet byTitle mapped with
  | some info => classifySnap existing info.traktId ep.name epTitle
  | none =>
    let normTitle := normalizeTitle mapped
    match dictGet byTitle normTitle with
    | some info => classifySnap existing info.traktId ep.name epTitle
    | none =>
      match geassBranch sa seasons byTitle existing ep.name with
      | some tid => .addedO tid ep.name
      | none =>
        match fuzzyBest sim normTitle byTitle with
        | (some kp, _) => classifySnap existing kp.2.traktId ep.name epTitle
        | (none, _) => .failedO ep

/-- One iteration of the main episode loop (lines 750–920): number matching
(number/hybrid), then the title cascade (title/hybrid).  In `number` mode a
missed episode produces no record at all (the `if not matched` branch
recording failures sits inside the title block).  `specialAnime` is the
`special_anime` flag (the Geass branch re-tests the same anime-name
condition, so a single flag is faithful). -/
def processEp (mode : Mode) (specialAnime : Bool) (specialMatches : List (Str × Str))
    (byNumber byTitle : List (Str × EpInfo)) (allSeasons : List SeasonData)
    (existing : List Nat) (sim : Str → Str → ℚ) (ep0 : ScrapedEp) : Option EpOutcome :=
  let ep := if specialAnime then handleSpecial ep0 else ep0
  match numberBranch mode byNumber existing ep with
  | some o => some o
  | none =>
    if mode = Mode.title ∨ mode = Mode.hybrid then
      some (titleBranch specialAnime specialMatches byTitle allSeasons existing sim ep)
    else none

/-- The whole classification pass over the desired episodes.  Each loop
iteration appends at most one record, so the per-run lists are the
concatenation of the per-episode outcomes in order. -/
def classifyRun (mode : Mode) (specialAnime : Bool) (specialMatches : List (Str × Str))
    (byNumber byTitle : List (Str × EpInfo)) (allSeasons : List SeasonData)
    (existing : List Nat) (sim : Str → Str → ℚ) (eps : List ScrapedEp) : List EpOutcome :=
  eps.filterMap (processEp mode specialAnime specialMatches byNumber byTitle allSeasons existing sim)

/-- `episodes_to_add` of a run: pairs `(trakt_id, episode_name)`. -/
def toAddOf (outs : List EpOutcome) : List (Nat × Str) :=
  outs.filterMap (fun o => match o with | .addedO id n => some (id, n) | _ => none)

/-- The trakt ids of `episodes_to_add` — also the ids put into the batched
add payload (`{'ids': {'trakt': ...}}` per entry). -/
def addIdsOf (outs : List EpOutcome) : List Nat := (toAddOf outs).map (fun p => p.1)

/-- `skipped_episodes` of a run (the identifiers the source appends). -/
def skippedOf (outs : List EpOutcome) : List Str :=
  outs.filterMap (fun o => match o with | .skippedO _ i => some i | _ => none)

/-- The trakt ids whose presence in the snapshot produced the skip records. -/
def skipIdsOf (outs : List EpOutcome) : List Nat :=
  outs.filterMap (fun o => match o with | .skippedO id _ => some id | _ => none)

/-- `failed_episodes` collected during matching. -/
def failedOf (outs : List EpOutcome) : List ScrapedEp :=
  outs.filterMap (fun o => match o with | .failedO e => some e | _ => none)

/-! ## The batched add loop (lines 941–983) -/

/-- Status of one POST of the batch payload. -/
inductive RespStatus where
  | created201
  | rateLimited429
  | otherStatus
deriving DecidableEq

/-- Observable events of the per-batch retry loop: the POST itself, the
`time.sleep` calls with their durations, the success bookkeeping, and the two
batch-failure sites (non-rate-limit status inside the loop; exhausted retries
after it). -/
inductive BatchEvent where
  | post
  | sleepEv (d : ℚ)
  | addedNames (ns : List Str)
  | failedOther (b : List (Nat × Str))
  | failedExhausted (b : List (Nat × Str))
deriving DecidableEq

/-- The `while retry_count < max_retries` loop for one batch followed by the
`if retry_count == max_retries` failure record, with `max_retries = 3`,
initial delay 1 and exponential doubling.  `fuel = 3 - retry_count`;
`respond n` is the status of the `n`-th POST overall. -/
def batchTries (respond : Nat → RespStatus) (batch : List (Nat × Str)) :
    Nat → Nat → ℚ → List BatchEvent
  | 0, _, _ => [.failedExhausted batch]
  | fuel + 1, attempt, delay =>
    .post :: (match respond attempt with
      | .created201 => [.addedNames (batch.map (fun p => p.2)), .sleepEv (1/2)]
      | .rateLimited429 => .sleepEv delay :: batchTries respond batch fuel (attempt + 1) (delay * 2)
      | .otherStatus => [.failedOther batch])

/-- One batch processed from the start: `retry_count = 0`, `retry_delay = 1`. -/
def runBatch (respond : Nat → RespStatus) (batch : List (Nat × Str)) : List BatchEvent :=
  batchTries respond batch 3 0 1

def isPost : BatchEvent → Bool
  | .post => true
  | _ => false

def sleepDur : BatchEvent → Option ℚ
  | .sleepEv d => some d
  | _ => none

/-- Number of POSTs issued for a batch. -/
def postCount (tr : List BatchEvent) : Nat := (tr.filter isPost).length

/-- The sleep durations that occur between two POSTs of the trace, i.e.
strictly before the last POST. -/
def sleepsBetweenPosts (tr : List BatchEvent) : List ℚ :=
  ((((tr.reverse).dropWhile (fun e => !isPost e)).drop 1).reverse).filterMap sleepDur


/-- The ids sent in one batched add payload
(`[{'ids': {'trakt': ep['ids']['trakt']}} for ep in batch]`). -/
def submittedIds (toAdd : List (Nat × Str)) : List Nat := toAdd.map (fun p => p.1)

/-! ## Supporting lemmas -/

theorem handleSpecial_number (ep : ScrapedEp) : (handleSpecial ep).number = ep.number := by
  unfold handleSpecial
  split
  · split <;> rfl
  · rfl

/-- The trakt id an outcome refers to when the episode was matched (added or
skipped); `none` for a failure record.  Projection used to state that the
matching decision is independent of the snapshot. -/
def matchedId : Option EpOutcome → Option Nat
  | some (.addedO id _) => some id
  | some (.skippedO id _) => some id
  | _ => none

theorem geassEpScan_not_mem {existing : List Nat} {epNum : Nat} :
    ∀ {eps : List RawEp} {tid : Nat}, geassEpScan existing epNum eps = some tid →
      tid ∉ existing := by
  intro eps
  induction eps with
  | nil => intro tid h; simp [geassEpScan] at h
  | cons ed rest ih =>
    intro tid h
    unfold geassEpScan at h
    split at h
    · split at h
      · split at h
        · rename_i hcond
          injection h with h'
          subst h'
          exact hcond.2
        · exact ih h
      · exact ih h
    · exact ih h

theorem geassSeasonScan_not_mem {existing : List Nat} {seasonNum epNum : Nat} :
    ∀ {seasons : List SeasonData} {tid : Nat},
      geassSeasonScan existing seasonNum epNum seasons = some tid → tid ∉ existing := by
  intro seasons
  induction seasons with
  | nil => intro tid h; simp [geassSeasonScan] at h
  | cons sd rest ih =>
    intro tid h
    unfold geassSeasonScan at h
    split at h
    · split at h
      · rename_i hscan
        injection h with h'
        subst h'
        exact geassEpScan_not_mem hscan
      · exact ih h
    · exact ih h

theorem geassTitleScan_not_mem {existing : List Nat} {normPure lowerPure : Str} :
    ∀ {d : List (Str × EpInfo)} {tid : Nat},
      geassTitleScan existing normPure lowerPure d = some tid → tid ∉ existing := by
  intro d
  induction d with
  | nil => intro tid h; simp [geassTitleScan] at h
  | cons p rest ih =>
    intro tid h
    unfold geassTitleScan at h
    split at h
    · split at h
      · rename_i hmem
        injection h with h'
        subst h'
        exact hmem
      · exact ih h
    · exact ih h

theorem geassBranch_not_mem {sa : Bool} {seasons : List SeasonData}
    {bt : List (Str × EpInfo)} {existing : List Nat} {name : Str} {tid : Nat}
    (h : geassBranch sa seasons bt existing name = some tid) : tid ∉ existing := by
  unfold geassBranch at h
  split at h
  · split at h
    · split at h
      · rename_i hscan
        injection h with h'
        subst h'
        split at hscan
        · exact geassSeasonScan_not_mem hscan
        · exact absurd hscan (by simp)
      · split at h
        · exact geassTitleScan_not_mem h
        · exact absurd h (by simp)
    · exact absurd h (by simp)
  · exact absurd h (by simp)

theorem classifySnap_added {existing : List Nat} {id id' : Nat} {nm ident n : Str}
    (h : classifySnap existing id nm ident = .addedO id' n) : id' = id ∧ id ∉ existing := by
  unfold classifySnap at h
  split at h
  · rename_i hmem
    injection h with h1 h2
    exact ⟨h1.symm, hmem⟩
  · exact absurd h (by simp)

theorem classifySnap_skipped {existing : List Nat} {id id' : Nat} {nm ident i : Str}
    (h : classifySnap existing id nm ident = .skippedO id' i) : id' = id ∧ id ∈ existing := by
  unfold classifySnap at h
  split at h
  · exact absurd h (by simp)
  · rename_i hmem
    injection h with h1 h2
    exact ⟨h1.symm, not_not.mp hmem⟩

theorem titleBranch_added {sa : Bool} {sm : List (Str × Str)} {bt : List (Str × EpInfo)}
    {seasons : List SeasonData} {existing : List Nat} {sim : Str → Str → ℚ}
    {ep : ScrapedEp} {id : Nat} {n : Str}
    (h : titleBranch sa sm bt seasons existing sim ep = .addedO id n) : id ∉ existing := by
  simp only [titleBranch] at h
  cases h1 : dictGet bt (mappedTitleOf sm (lowerStr ep.name)) with
  | some info =>
    simp only [h1] at h
    exact ((classifySnap_added h).2 <| (classifySnap_added h).1 ▸ ·)
  | none =>
    simp only [h1] at h
    cases h2 : dictGet bt (normalizeTitle (mappedTitleOf sm (lowerStr ep.name))) with
    | some info =>
      simp only [h2] at h
      exact ((classifySnap_added h).2 <| (classifySnap_added h).1 ▸ ·)
    | none =>
      simp only [h2] at h
      cases h3 : geassBranch sa seasons bt existing ep.name with
      | some tid =>
        simp only [h3] at h
        injection h with ha hb
        subst ha
        exact geassBranch_not_mem h3
      | none =>
        simp only [h3] at h
        rcases h4 : fuzzyBest sim (normalizeTitle (mappedTitleOf sm (lowerStr ep.name))) bt
          with ⟨fst, snd⟩
        simp only [h4] at h
        cases fst with
        | some kp =>
          exact ((classifySnap_added h).2 <| (classifySnap_added h).1 ▸ ·)
        | none => exact absurd h (by simp)

theorem titleBranch_skipped {sa : Bool} {sm : List (Str × Str)} {bt : List (Str × EpInfo)}
    {seasons : List SeasonData} {existing : List Nat} {sim : Str → Str → ℚ}
    {ep : ScrapedEp} {id : Nat} {i : Str}
    (h : titleBranch sa sm bt seasons existing sim ep = .skippedO id i) : id ∈ existing := by
  simp only [titleBranch] at h
  cases h1 : dictGet bt (mappedTitleOf sm (lowerStr ep.name)) with
  | some info =>
    simp only [h1] at h
    exact (classifySnap_skipped h).1 ▸ (classifySnap_skipped h).2
  | none =>
    simp only [h1] at h
    cases h2 : dictGet bt (normalizeTitle (mappedTitleOf sm (lowerStr ep.name))) with
    | some info =>
      simp only [h2] at h
      exact (classifySnap_skipped h).1 ▸ (classifySnap_skipped h).2
    | none =>
      simp only [h2] at h
      cases h3 : geassBranch sa seasons bt existing ep.name with
      | some tid =>
        simp only [h3] at h
        exact absurd h (by simp)
      | none =>
        simp only [h3] at h
        rcases h4 : fuzzyBest sim (normalizeTitle (mappedTitleOf sm (lowerStr ep.name))) bt
          with ⟨fst, snd⟩
        simp only [h4] at h
        cases fst with
        | some kp =>
          exact (classifySnap_skipped h).1 ▸ (classifySnap_skipped h).2
        | none => exact absurd h (by simp)

theorem numberBranch_added {mode : Mode} {bn : List (Str × EpInfo)} {existing : List Nat}
    {ep : ScrapedEp} {id : Nat} {n : Str}
    (h : numberBranch mode bn existing ep = some (.addedO id n)) : id ∉ existing := by
  unfold numberBranch at h
  split at h
  · split at h
    · injection h with h'
      exact ((classifySnap_added h').2 <| (classifySnap_added h').1 ▸ ·)
    · exact absurd h (by simp)
  · exact absurd h (by simp)

theorem numberBranch_skipped {mode : Mode} {bn : List (Str × EpInfo)} {existing : List Nat}
    {ep : ScrapedEp} {id : Nat} {i : Str}
    (h : numberBranch mode bn existing ep = some (.skippedO id i)) : id ∈ existing := by
  unfold numberBranch at h
  split at h
  · split at h
    · injection h with h'
      exact (classifySnap_skipped h').1 ▸ (classifySnap_skipped h').2
    · exact absurd h (by simp)
  · exact absurd h (by simp)

theorem processEp_added_not_mem {mode : Mode} {sa : Bool} {sm : List (Str × Str)}
    {bn bt : List (Str × EpInfo)} {seasons : List SeasonData} {existing : List Nat}
    {sim : Str → Str → ℚ} {ep : ScrapedEp} {id : Nat} {n : Str}
    (h : processEp mode sa sm bn bt seasons existing sim ep = some (.addedO id n)) :
    id ∉ existing := by
  simp only [processEp] at h
  cases hnb : numberBranch mode bn existing (if sa then handleSpecial ep else ep) with
  | some o =>
    simp only [hnb] at h
    injection h with h'
    subst h'
    exact numberBranch_added hnb
  | none =>
    simp only [hnb] at h
    by_cases hm : mode = Mode.title ∨ mode = Mode.hybrid
    · rw [if_pos hm] at h
      injection h with h'
      exact titleBranch_added h'
    · rw [if_neg hm] at h
      exact absurd h (by simp)

theorem processEp_skipped_mem {mode : Mode} {sa : Bool} {sm : List (Str × Str)}
    {bn bt : List (Str × EpInfo)} {seasons : List SeasonData} {existing : List Nat}
    {sim : Str → Str → ℚ} {ep : ScrapedEp} {id : Nat} {i : Str}
    (h : processEp mode sa sm bn bt seasons existing sim ep = some (.skippedO id i)) :
    id ∈ existing := by
  simp only [processEp] at h
  cases hnb : numberBranch mode bn existing (if sa then handleSpecial ep else ep) with
  | some o =>
    simp only [hnb] at h
    injection h with h'
    subst h'
    exact numberBranch_skipped hnb
  | none =>
    simp only [hnb] at h
    by_cases hm : mode = Mode.title ∨ mode = Mode.hybrid
    · rw [if_pos hm] at h
      injection h with h'
      exact titleBranch_skipped h'
    · rw [if_neg hm] at h
      exact absurd h (by simp)

theorem mem_addIdsOf {outs : List EpOutcome} {a : Nat} (h : a ∈ addIdsOf outs) :
    ∃ n, EpOutcome.addedO a n ∈ outs := by
  unfold addIdsOf toAddOf at h
  obtain ⟨p, hp, hfst⟩ := List.mem_map.mp h
  obtain ⟨o, ho, hgo⟩ := List.mem_filterMap.mp hp
  cases o with
  | addedO id n =>
    simp at hgo
    refine ⟨n, ?_⟩
    have : id = a := by rw [← hgo] at hfst; simpa using hfst
    exact this ▸ ho
  | skippedO id i => simp at hgo
  | failedO e => simp at hgo

theorem mem_skipIdsOf {outs : List EpOutcome} {a : Nat} (h : a ∈ skipIdsOf outs) :
    ∃ i, EpOutcome.skippedO a i ∈ outs := by
  unfold skipIdsOf at h
  obtain ⟨o, ho, hgo⟩ := List.mem_filterMap.mp h
  cases o with
  | addedO id n => simp at hgo
  | skippedO id i =>
    simp at hgo
    exact ⟨i, hgo ▸ ho⟩
  | failedO e => simp at hgo

/-! ## Claims -/

theorem matchedId_classifySnap (ex : List Nat) (id : Nat) (nm ident : Str) :
    matchedId (some (classifySnap ex id nm ident)) = some id := by
  unfold classifySnap
  split <;> rfl

theorem titleBranch_matchedId_ext (sm : List (Str × Str)) (bt : List (Str × EpInfo))
    (seasons : List SeasonData) (ex1 ex2 : List Nat) (sim : Str → Str → ℚ) (ep : ScrapedEp) :
    matchedId (some (titleBranch false sm bt seasons ex1 sim ep)) =
    matchedId (some (titleBranch false sm bt seasons ex2 sim ep)) := by
  simp only [titleBranch]
  cases h1 : dictGet bt (mappedTitleOf sm (lowerStr ep.name)) with
  | some info => simp only [h1, matchedId_classifySnap]
  | none =>
    simp only [h1]
    cases h2 : dictGet bt (normalizeTitle (mappedTitleOf sm (lowerStr ep.name))) with
    | some info => simp only [h2, matchedId_classifySnap]
    | none =>
      simp only [h2]
      have hg1 : geassBranch false seasons bt ex1 ep.name = none := rfl
      have hg2 : geassBranch false seasons bt ex2 ep.name = none := rfl
      simp only [hg1, hg2]
      rcases fuzzyBest sim (normalizeTitle (mappedTitleOf sm (lowerStr ep.name))) bt
        with ⟨fst, snd⟩
      cases fst with
      | some kp => simp only [matchedId_classifySnap]
      | none => rfl

theorem processEp_matchedId_ext (mode : Mode) (sm : List (Str × Str))
    (bn bt : List (Str × EpInfo)) (seasons : List SeasonData) (ex1 ex2 : List Nat)
    (sim : Str → Str → ℚ) (ep : ScrapedEp) :
    matchedId (processEp mode false sm bn bt seasons ex1 sim ep) =
    matchedId (processEp mode false sm bn bt seasons ex2 sim ep) := by
  have hep : ∀ ex : List Nat, processEp mode false sm bn bt seasons ex sim ep =
      (match numberBranch mode bn ex ep with
       | some o => some o
       | none =>
         if mode = Mode.title ∨ mode = Mode.hybrid then
           some (titleBranch false sm bt seasons ex sim ep)
         else none) := fun _ => rfl
  rw [hep ex1, hep ex2]
  unfold numberBranch
  by_cases hm : mode = Mode.number ∨ mode = Mode.hybrid
  · simp only [if_pos hm]
    cases hl : numberLookup bn ep.number with
    | some d => simp only [matchedId_classifySnap]
    | none =>
      by_cases hm2 : mode = Mode.title ∨ mode = Mode.hybrid
      · simp only [if_pos hm2]
        exact titleBranch_matchedId_ext sm bt seasons ex1 ex2 sim ep
      · simp only [if_neg hm2]
  · simp only [if_neg hm]
    by_cases hm2 : mode = Mode.title ∨ mode = Mode.hybrid
    · simp only [if_pos hm2]
      exact titleBranch_matchedId_ext sm bt seasons ex1 ex2 sim ep
    · simp only [if_neg hm2]

theorem toAddOf_filterMap_nil {f : ScrapedEp → Option EpOutcome} {eps : List ScrapedEp}
    (h : ∀ ep ∈ eps, ∀ id n, f ep ≠ some (.addedO id n)) :
    toAddOf (eps.filterMap f) = [] := by
  induction eps with
  | nil => rfl
  | cons e rest ih =>
    rw [List.filterMap_cons]
    cases hf : f e with
    | none => exact ih (fun ep hm => h ep (List.mem_cons_of_mem _ hm))
    | some o =>
      cases o with
      | addedO id n => exact absurd hf (h e (List.mem_cons_self _ _) id n)
      | skippedO id i =>
        simp only [toAddOf, List.filterMap_cons]
        exact ih (fun ep hm => h ep (List.mem_cons_of_mem _ hm))
      | failedO e' =>
        simp only [toAddOf, List.filterMap_cons]
        exact ih (fun ep hm => h ep (List.mem_cons_of_mem _ hm))

/-! ## Idempotence analysis of `normalize_episode_title`

The second application of the normalizer is the identity on its own output
*except* for the `part\s+(\d+)` rewrite, which the stop-word deletion of the
first pass can newly expose.  The lemmas below establish, for
`y = normalizeTitle s`:
* every character of `y` is a word character or a space, fixed by lowering
  (so the punctuation rewrite and `lower()` are the identity, and the two
  parenthesis rules never match);
* `y` contains no `digit·'x'·digit` triple (so the `NxNN` rule is the
  identity);
* no maximal word run of `y` is a stop word (so the four stop-word deletions
  are the identity);
* `y` is whitespace-collapsed and stripped (so the final rewrite is the
  identity). -/

/-- Characters for which the second pass of `subPunct`/`lower` is inert. -/
def charInert (c : Char) : Prop :=
  (isWordChar c = true ∨ isWs c = true) ∧ pyLowerChar c = c

theorem lowerTable_snd_ok :
    ∀ p ∈ lowerTable, isWordChar p.2 = true ∧ pyLowerChar p.2 = p.2 := by decide

theorem pyLowerChar_cases (c : Char) :
    pyLowerChar c = c ∨ ∃ p ∈ lowerTable, pyLowerChar c = p.2 := by
  unfold pyLowerChar
  cases h : lowerTable.find? (fun p => decide (p.1 = c)) with
  | none => exact Or.inl rfl
  | some p => exact Or.inr ⟨p, List.mem_of_find?_eq_some h, rfl⟩

theorem charInert_space : charInert ' ' := by
  constructor
  · right; decide
  · decide

theorem charInert_lower {c : Char} (h : isWordChar c = true ∨ isWs c = true) :
    charInert (pyLowerChar c) := by
  rcases pyLowerChar_cases c with hc | ⟨p, hp, hc⟩
  · rw [hc]
    exact ⟨h, hc⟩
  · rw [hc]
    obtain ⟨h1, h2⟩ := lowerTable_snd_ok p hp
    exact ⟨Or.inl h1, h2⟩

theorem charInert_digit {c : Char} (h : isDigitCh c = true) : charInert c := by
  constructor
  · left
    simp only [isWordChar, isDigitCh] at *
    simp [Char.isAlphanum, h]
  · rcases pyLowerChar_cases c with hc | ⟨p, hp, hc⟩
    · exact hc
    · -- a digit is not an upper-case letter, so the table lookup fails
      unfold pyLowerChar
      cases hfind : lowerTable.find? (fun p => decide (p.1 = c)) with
      | none => rfl
      | some q =>
        have hq := List.find?_some hfind
        have hq1 : q.1 = c := by simpa using hq
        have hmem := List.mem_of_find?_eq_some hfind
        have : isDigitCh q.1 = false := by
          revert hmem
          have : ∀ r ∈ lowerTable, isDigitCh r.1 = false := by decide
          exact fun hm => this q hm
        rw [hq1, h] at this
        exact absurd this (by simp)

/-- Characters of the first-pass output are inert. -/
theorem subPunct_lower_inert (s : Str) :
    ∀ c ∈ lowerStr (subPunct s), charInert c := by
  intro c hc
  simp only [lowerStr, subPunct, List.map_map, List.mem_map] at hc
  obtain ⟨c0, _, hc0⟩ := hc
  simp only [Function.comp] at hc0
  by_cases h : isWordChar c0 || isWs c0
  · rw [if_pos h] at hc0
    subst hc0
    exact charInert_lower (by
      rcases Bool.or_eq_true_iff.mp h with h' | h'
      · exact Or.inl h'
      · exact Or.inr h')
  · rw [if_neg h] at hc0
    subst hc0
    exact charInert_lower (Or.inr (by decide))

/-! Character-membership lemmas: every scanner emits only characters of its
input (plus spaces, for the whitespace collapse). -/

theorem partSubAux_mem : ∀ (fuel : Nat) (s : Str), ∀ c ∈ partSubAux fuel s, c ∈ s := by
  intro fuel
  induction fuel with
  | zero => intro s c hc; cases s with
    | nil => simp [partSubAux] at hc
    | cons a as => simpa [partSubAux] using hc
  | succ n ih =>
    intro s c hc
    cases s with
    | nil => simp [partSubAux] at hc
    | cons a as =>
      rw [partSubAux] at hc
      cases hm : partMatchAt (a :: as) with
      | some pr =>
        rw [hm] at hc
        rcases List.mem_append.mp hc with h1 | h1
        · -- the digit group is a sub-part of the input
          have hd : pr.1 = (((a :: as).drop 4).dropWhile isWs).takeWhile isDigitCh := by
            unfold partMatchAt at hm
            split at hm
            · simp only at hm
              split at hm
              · split at hm
                · injection hm with hm'
                  rw [← hm']
                · exact absurd hm (by simp)
              · exact absurd hm (by simp)
            · exact absurd hm (by simp)
          rw [hd] at h1
          have h2 := (List.takeWhile_sublist isDigitCh
            (l := ((a :: as).drop 4).dropWhile isWs)).mem h1
          have h3 := (List.dropWhile_sublist isWs (l := (a :: as).drop 4)).mem h2
          exact (List.drop_sublist 4 (a :: as)).mem h3
        · -- recursion on the remainder, a sub-part of the input
          have h2 := ih pr.2 c h1
          have hr : pr.2 = (((a :: as).drop 4).dropWhile isWs).dropWhile isDigitCh := by
            unfold partMatchAt at hm
            split at hm
            · simp only at hm
              split at hm
              · split at hm
                · injection hm with hm'
                  rw [← hm']
                · exact absurd hm (by simp)
              · exact absurd hm (by simp)
            · exact absurd hm (by simp)
          rw [hr] at h2
          have h3 := (List.dropWhile_sublist isDigitCh
            (l := ((a :: as).drop 4).dropWhile isWs)).mem h2
          have h4 := (List.dropWhile_sublist isWs (l := (a :: as).drop 4)).mem h3
          exact (List.drop_sublist 4 (a :: as)).mem h4
      | none =>
        rw [hm] at hc
        rcases List.mem_cons.mp hc with h1 | h1
        · exact h1 ▸ List.mem_cons_self a as
        · exact List.mem_cons_of_mem a (ih as c h1)

theorem parenNumMatchAt_eq {s d r : Str} (h : parenNumMatchAt s = some (d, r)) :
    ∃ t, s = '(' :: t ∧ d = t.takeWhile isDigitCh ∧ t.dropWhile isDigitCh = ')' :: r := by
  unfold parenNumMatchAt at h
  split at h
  · rename_i t
    simp only at h
    split at h
    · split at h
      · rename_i r' hdrop
        injection h with h'
        injection h' with h1 h2
        exact ⟨t, rfl, h1.symm, by rw [hdrop, h2]⟩
      · exact absurd h (by simp)
    · exact absurd h (by simp)
  · exact absurd h (by simp)

theorem parenNumSubAux_mem : ∀ (fuel : Nat) (s : Str), ∀ c ∈ parenNumSubAux fuel s, c ∈ s := by
  intro fuel
  induction fuel with
  | zero => intro s c hc; cases s with
    | nil => simp [parenNumSubAux] at hc
    | cons a as => simpa [parenNumSubAux] using hc
  | succ n ih =>
    intro s c hc
    cases s with
    | nil => simp [parenNumSubAux] at hc
    | cons a as =>
      rw [parenNumSubAux] at hc
      cases hm : parenNumMatchAt (a :: as) with
      | some pr =>
        rw [hm] at hc
        obtain ⟨t, hs, hd, hdrop⟩ := parenNumMatchAt_eq hm
        injection hs with hs1 hs2
        subst hs1; subst hs2
        rcases List.mem_append.mp hc with h1 | h1
        · rw [hd] at h1
          exact List.mem_cons_of_mem _ ((List.takeWhile_sublist isDigitCh).mem h1)
        · have h2 := ih pr.2 c h1
          have h3 : c ∈ ')' :: pr.2 := List.mem_cons_of_mem _ h2
          rw [← hdrop] at h3
          exact List.mem_cons_of_mem _ ((List.dropWhile_sublist isDigitCh).mem h3)
      | none =>
        rw [hm] at hc
        rcases List.mem_cons.mp hc with h1 | h1
        · exact h1 ▸ List.mem_cons_self a as
        · exact List.mem_cons_of_mem a (ih as c h1)

theorem dxdMatchAt_eq {s r : Str} (h : dxdMatchAt s = some r) :
    ∃ t, s.dropWhile isDigitCh = 'x' :: t ∧ s.takeWhile isDigitCh ≠ [] ∧
      t.takeWhile isDigitCh ≠ [] ∧ r = (t.dropWhile isDigitCh).dropWhile isWs := by
  unfold dxdMatchAt at h
  simp only at h
  split at h
  · rename_i hd1
    split at h
    · rename_i t hdrop
      split at h
      · rename_i hd2
        injection h with h'
        exact ⟨t, hdrop, by simpa using hd1, by simpa using hd2, h'.symm⟩
      · exact absurd h (by simp)
    · exact absurd h (by simp)
  · exact absurd h (by simp)

theorem dxdSubAux_mem : ∀ (fuel : Nat) (s : Str), ∀ c ∈ dxdSubAux fuel s, c ∈ s := by
  intro fuel
  induction fuel with
  | zero => intro s c hc; cases s with
    | nil => simp [dxdSubAux] at hc
    | cons a as => simpa [dxdSubAux] using hc
  | succ n ih =>
    intro s c hc
    cases s with
    | nil => simp [dxdSubAux] at hc
    | cons a as =>
      rw [dxdSubAux] at hc
      cases hm : dxdMatchAt (a :: as) with
      | some r =>
        rw [hm] at hc
        obtain ⟨t, hdrop, _, _, hr⟩ := dxdMatchAt_eq hm
        have h2 := ih r c hc
        rw [hr] at h2
        have h3 := (List.dropWhile_sublist isWs).mem h2
        have h4 := (List.dropWhile_sublist isDigitCh (l := t)).mem h3
        have h5 : c ∈ 'x' :: t := List.mem_cons_of_mem _ h4
        rw [← hdrop] at h5
        exact (List.dropWhile_sublist isDigitCh).mem h5
      | none =>
        rw [hm] at hc
        rcases List.mem_cons.mp hc with h1 | h1
        · exact h1 ▸ List.mem_cons_self a as
        · exact List.mem_cons_of_mem a (ih as c h1)

theorem parenDropMatchAt_eq {s r : Str} (h : parenDropMatchAt s = some r) :
    ∃ t r', s = '(' :: t ∧ t.dropWhile isDigitCh = ')' :: r' ∧ r = r'.dropWhile isWs := by
  unfold parenDropMatchAt at h
  split at h
  · rename_i t
    simp only at h
    split at h
    · split at h
      · rename_i r' hdrop
        injection h with h'
        exact ⟨t, r', rfl, hdrop, h'.symm⟩
      · exact absurd h (by simp)
    · exact absurd h (by simp)
  · exact absurd h (by simp)

theorem parenDropSubAux_mem : ∀ (fuel : Nat) (s : Str), ∀ c ∈ parenDropSubAux fuel s, c ∈ s := by
  intro fuel
  induction fuel with
  | zero => intro s c hc; cases s with
    | nil => simp [parenDropSubAux] at hc
    | cons a as => simpa [parenDropSubAux] using hc
  | succ n ih =>
    intro s c hc
    cases s with
    | nil => simp [parenDropSubAux] at hc
    | cons a as =>
      rw [parenDropSubAux] at hc
      cases hm : parenDropMatchAt (a :: as) with
      | some r =>
        rw [hm] at hc
        obtain ⟨t, r', hs, hdrop, hr⟩ := parenDropMatchAt_eq hm
        injection hs with hs1 hs2
        subst hs1; subst hs2
        have h2 := ih r c hc
        rw [hr] at h2
        have h3 := (List.dropWhile_sublist isWs).mem h2
        have h4 : c ∈ ')' :: r' := List.mem_cons_of_mem _ h3
        rw [← hdrop] at h4
        exact List.mem_cons_of_mem _ ((List.dropWhile_sublist isDigitCh).mem h4)
      | none =>
        rw [hm] at hc
        rcases List.mem_cons.mp hc with h1 | h1
        · exact h1 ▸ List.mem_cons_self a as
        · exact List.mem_cons_of_mem a (ih as c h1)

theorem dropWordRunAux_mem (w : Str) :
    ∀ (fuel : Nat) (s : Str), ∀ c ∈ dropWordRunAux w fuel s, c ∈ s := by
  intro fuel
  induction fuel with
  | zero => intro s c hc; cases s with
    | nil => simp [dropWordRunAux] at hc
    | cons a as => simpa [dropWordRunAux] using hc
  | succ n ih =>
    intro s c hc
    cases s with
    | nil => simp [dropWordRunAux] at hc
    | cons a as =>
      rw [dropWordRunAux] at hc
      by_cases hw : isWordChar a
      · rw [if_pos hw] at hc
        rcases List.mem_append.mp hc with h1 | h1
        · have h2 : c ∈ a :: as.takeWhile isWordChar := by
            by_cases hrun : (a :: as.takeWhile isWordChar) = w
            · rw [if_pos hrun] at h1; simp at h1
            · rw [if_neg hrun] at h1; exact h1
          rcases List.mem_cons.mp h2 with h3 | h3
          · exact h3 ▸ List.mem_cons_self a as
          · exact List.mem_cons_of_mem a ((List.takeWhile_sublist isWordChar).mem h3)
        · have h2 := ih (as.dropWhile isWordChar) c h1
          exact List.mem_cons_of_mem a ((List.dropWhile_sublist isWordChar).mem h2)
      · rw [if_neg hw] at hc
        rcases List.mem_cons.mp hc with h1 | h1
        · exact h1 ▸ List.mem_cons_self a as
        · exact List.mem_cons_of_mem a (ih as c h1)

theorem collapseWsAux_mem :
    ∀ (fuel : Nat) (s : Str), ∀ c ∈ collapseWsAux fuel s, c ∈ s ∨ c = ' ' := by
  intro fuel
  induction fuel with
  | zero => intro s c hc; cases s with
    | nil => simp [collapseWsAux] at hc
    | cons a as => exact Or.inl (by simpa [collapseWsAux] using hc)
  | succ n ih =>
    intro s c hc
    cases s with
    | nil => simp [collapseWsAux] at hc
    | cons a as =>
      rw [collapseWsAux] at hc
      by_cases hw : isWs a
      · rw [if_pos hw] at hc
        rcases List.mem_cons.mp hc with h1 | h1
        · exact Or.inr h1
        · rcases ih (as.dropWhile isWs) c h1 with h2 | h2
          · exact Or.inl (List.mem_cons_of_mem a ((List.dropWhile_sublist isWs).mem h2))
          · exact Or.inr h2
      · rw [if_neg hw] at hc
        rcases List.mem_cons.mp hc with h1 | h1
        · exact Or.inl (h1 ▸ List.mem_cons_self a as)
        · rcases ih as c h1 with h2 | h2
          · exact Or.inl (List.mem_cons_of_mem a h2)
          · exact Or.inr h2

theorem stripWs_mem {s : Str} {c : Char} (hc : c ∈ stripWs s) : c ∈ s := by
  unfold stripWs at hc
  rw [List.mem_reverse] at hc
  have h1 := (List.dropWhile_sublist isWs).mem hc
  rw [List.mem_reverse] at h1
  exact (List.dropWhile_sublist isWs).mem h1

/-- Every character of a normalized title is inert. -/
theorem normalizeTitle_inert (s : Str) : ∀ c ∈ normalizeTitle s, charInert c := by
  intro c hc
  unfold normalizeTitle at hc
  have h1 := stripWs_mem hc
  rcases collapseWsAux_mem _ _ c h1 with h2 | h2
  · have h3 := dropWordRunAux_mem _ _ _ c h2
    have h4 := dropWordRunAux_mem _ _ _ c h3
    have h5 := dropWordRunAux_mem _ _ _ c h4
    have h6 := dropWordRunAux_mem _ _ _ c h5
    have h7 := parenDropSubAux_mem _ _ c h6
    have h8 := dxdSubAux_mem _ _ c h7
    have h9 := parenNumSubAux_mem _ _ c h8
    have h10 := partSubAux_mem _ _ c h9
    exact subPunct_lower_inert s c h10
  · exact h2 ▸ charInert_space

/-- `s` contains a `digit·'x'·digit` triple — exactly the seeds of
`re.sub(r'\d+x\d+\s*', ...)` matches. -/
def HasSeed (s : Str) : Prop :=
  ∃ a d e b, s = a ++ d :: 'x' :: e :: b ∧ isDigitCh d = true ∧ isDigitCh e = true

theorem hasSeed_nil : ¬ HasSeed [] := by
  rintro ⟨a, d, e, b, h, -, -⟩
  exact absurd h.symm (by simp)

theorem hasSeed_cons {c : Char} {cs : Str} (h : HasSeed cs) : HasSeed (c :: cs) := by
  obtain ⟨a, d, e, b, h1, h2, h3⟩ := h
  exact ⟨c :: a, d, e, b, by rw [h1]; rfl, h2, h3⟩

theorem hasSeed_append_left {u v : Str} (h : HasSeed u) : HasSeed (u ++ v) := by
  obtain ⟨a, d, e, b, h1, h2, h3⟩ := h
  exact ⟨a, d, e, b ++ v, by rw [h1]; simp, h2, h3⟩

theorem hasSeed_append_right {u v : Str} (h : HasSeed v) : HasSeed (u ++ v) := by
  obtain ⟨a, d, e, b, h1, h2, h3⟩ := h
  exact ⟨u ++ a, d, e, b, by rw [h1]; simp, h2, h3⟩

theorem hasSeed_elim_cons {c : Char} {cs : Str} (h : HasSeed (c :: cs)) :
    (isDigitCh c = true ∧ ∃ e b, cs = 'x' :: e :: b ∧ isDigitCh e = true) ∨ HasSeed cs := by
  obtain ⟨a, d, e, b, h1, h2, h3⟩ := h
  cases a with
  | nil =>
    injection h1 with hc ht
    exact Or.inl ⟨hc ▸ h2, e, b, ht, h3⟩
  | cons a0 a1 =>
    injection h1 with hc ht
    exact Or.inr ⟨a1, d, e, b, ht, h2, h3⟩

/-- Splitting a seed across an append: it lies in the left part, in the
right part, or straddles the boundary in one of two ways. -/
theorem hasSeed_append_cases {u v : Str} (h : HasSeed (u ++ v)) :
    HasSeed u ∨ HasSeed v ∨
    (∃ a d e b, u = a ++ [d] ∧ v = 'x' :: e :: b ∧
      isDigitCh d = true ∧ isDigitCh e = true) ∨
    (∃ a d e b, u = a ++ [d, 'x'] ∧ v = e :: b ∧
      isDigitCh d = true ∧ isDigitCh e = true) := by
  obtain ⟨a, d, e, b, h1, h2, h3⟩ := h
  rcases List.append_eq_append_iff.mp h1 with ⟨w, hw1, hw2⟩ | ⟨w, hw1, hw2⟩
  · exact Or.inr (Or.inl ⟨w, d, e, b, by rw [hw2], h2, h3⟩)
  · cases w with
    | nil =>
      simp at hw2
      exact Or.inr (Or.inl ⟨[], d, e, b, by simpa using hw2.symm, h2, h3⟩)
    | cons w0 wr =>
      injection hw2 with hw2a hw2b
      subst hw2a
      cases wr with
      | nil =>
        simp at hw2b
        exact Or.inr (Or.inr (Or.inl ⟨a, d, e, b, by rw [hw1], hw2b.symm, h2, h3⟩))
      | cons w1 wr2 =>
        injection hw2b with hw2c hw2d
        subst hw2c
        cases wr2 with
        | nil =>
          simp at hw2d
          exact Or.inr (Or.inr (Or.inr ⟨a, d, e, b, by rw [hw1], hw2d.symm, h2, h3⟩))
        | cons w2 wr3 =>
          injection hw2d with hw2e hw2f
          subst hw2e
          exact Or.inl ⟨a, d, e, wr3, by rw [hw1], h2, h3⟩

/-- If the per-position conditions hold on `cs`, then prefixing a digit
still yields a match. -/
theorem dxdMatchAt_cons_digit {c : Char} {cs : Str} (hc : isDigitCh c = true)
    (ht : ∃ t, cs.dropWhile isDigitCh = 'x' :: t ∧ t.takeWhile isDigitCh ≠ []) :
    dxdMatchAt (c :: cs) ≠ none := by
  obtain ⟨t, h1, h2⟩ := ht
  unfold dxdMatchAt
  simp only [List.takeWhile, List.dropWhile, hc, h1]
  simp [h1, h2]

/-- A digit at the head of the scanner output forces a digit at the head of
the input. -/
theorem dxdSubAux_head_digit : ∀ {fuel : Nat} {t : Str} {e : Char} {b : Str},
    dxdSubAux fuel t = e :: b → isDigitCh e = true →
    ∃ e0 t1, t = e0 :: t1 ∧ isDigitCh e0 = true := by
  intro fuel t e b h he
  cases t with
  | nil =>
    cases fuel <;> simp [dxdSubAux] at h
  | cons a t1 =>
    cases fuel with
    | zero =>
      rw [show dxdSubAux 0 (a :: t1) = a :: t1 from rfl] at h
      injection h with h1 _
      exact ⟨a, t1, rfl, h1 ▸ he⟩
    | succ n =>
      rw [dxdSubAux] at h
      cases hm : dxdMatchAt (a :: t1) with
      | some r =>
        obtain ⟨u, _, hne, _, _⟩ := dxdMatchAt_eq hm
        cases ha : isDigitCh a with
        | true => exact ⟨a, t1, rfl, ha⟩
        | false =>
          rw [List.takeWhile] at hne
          rw [ha] at hne
          exact absurd rfl hne
      | none =>
        rw [hm] at h
        injection h with h1 _
        exact ⟨a, t1, rfl, h1 ▸ he⟩

/-- The scanner's output never contains a seed. -/
theorem noSeed_dxdSubAux : ∀ (fuel : Nat) (s : Str), s.length ≤ fuel →
    ¬ HasSeed (dxdSubAux fuel s) := by
  intro fuel
  induction fuel with
  | zero =>
    intro s hlen
    have hs : s = [] := List.length_eq_zero.mp (Nat.le_zero.mp hlen)
    subst hs
    simpa [dxdSubAux] using hasSeed_nil
  | succ n ih =>
    intro s hlen
    cases s with
    | nil => simpa [dxdSubAux] using hasSeed_nil
    | cons c cs =>
      rw [dxdSubAux]
      cases hm : dxdMatchAt (c :: cs) with
      | some r =>
        have hr := dxdMatchAt_shrink hm
        simp only [List.length_cons] at hlen hr
        exact ih r (by omega)
      | none =>
        intro hseed
        rcases hasSeed_elim_cons hseed with ⟨hc, e, b, hout, he⟩ | htail
        · cases cs with
          | nil =>
            cases n <;> simp [dxdSubAux] at hout
          | cons a0 t0 =>
            cases hm2 : dxdMatchAt (a0 :: t0) with
            | some r2 =>
              obtain ⟨t, h1, hne1, hne2, _⟩ := dxdMatchAt_eq hm2
              exact dxdMatchAt_cons_digit hc ⟨t, h1, hne2⟩ hm
            | none =>
              have hkey : a0 = 'x' ∧ ∃ e0 t1, t0 = e0 :: t1 ∧ isDigitCh e0 = true := by
                cases n with
                | zero =>
                  rw [show dxdSubAux 0 (a0 :: t0) = a0 :: t0 from rfl] at hout
                  injection hout with h1 h2
                  exact ⟨h1, e, b, h2, he⟩
                | succ n2 =>
                  rw [dxdSubAux, hm2] at hout
                  injection hout with h1 h2
                  exact ⟨h1, dxdSubAux_head_digit h2 he⟩
              obtain ⟨hx, e0, t1, ht0, he0⟩ := hkey
              subst hx
              subst ht0
              have hxd : isDigitCh 'x' = false := by decide
              apply dxdMatchAt_cons_digit hc _ hm
              exact ⟨e0 :: t1, by simp [List.dropWhile_cons, hxd],
                by simp [List.takeWhile_cons, he0]⟩
        · simp only [List.length_cons] at hlen
          exact ih cs (by omega) htail

/-! ## Pass-two identity lemmas

Applying `normalize_episode_title` to its own output: each stage of the
pipeline acts as the identity on a string already in normal form, with the
single exception of the `part\s+(\d+)` rewrite (see `c8_not_idempotent`).
The lemmas below establish the identity of every other stage from the
structure of normal-form strings. -/

theorem ws_not_word {c : Char} (h : isWs c = true) : isWordChar c = false := by
  simp only [isWs, Bool.or_eq_true, decide_eq_true_eq] at h
  rcases h with ((((h | h) | h) | h) | h) | h <;> subst h <;> decide

theorem word_not_ws {c : Char} (h : isWordChar c = true) : isWs c = false := by
  cases hw : isWs c
  · rfl
  · rw [ws_not_word hw] at h
    exact absurd h (by decide)

theorem digit_word {c : Char} (h : isDigitCh c = true) : isWordChar c = true := by
  simp only [isDigitCh] at h
  simp [isWordChar, Char.isAlphanum, h]

theorem digit_not_ws {c : Char} (h : isDigitCh c = true) : isWs c = false := by
  cases hw : isWs c
  · rfl
  · have hword := ws_not_word hw
    rw [digit_word h] at hword
    exact absurd hword (by decide)

theorem subPunct_id : ∀ {s : Str}, (∀ c ∈ s, isWordChar c = true ∨ isWs c = true) →
    subPunct s = s := by
  intro s h
  induction s with
  | nil => rfl
  | cons c cs ih =>
    have hc : (if isWordChar c || isWs c then c else ' ') = c := by
      rcases h c (by simp) with h1 | h1 <;> simp [h1]
    have hcs := ih (fun d hd => h d (by simp [hd]))
    simp only [subPunct, List.map_cons] at hcs ⊢
    rw [hc, hcs]

theorem lowerStr_id : ∀ {s : Str}, (∀ c ∈ s, pyLowerChar c = c) → lowerStr s = s := by
  intro s h
  induction s with
  | nil => rfl
  | cons c cs ih =>
    have hcs := ih (fun d hd => h d (by simp [hd]))
    simp only [lowerStr, List.map_cons] at hcs ⊢
    rw [h c (by simp), hcs]

theorem parenNumMatchAt_none {c : Char} {cs : Str} (h : c ≠ '(') :
    parenNumMatchAt (c :: cs) = none := by
  unfold parenNumMatchAt
  split
  · rename_i t heq
    injection heq with h1 _
    exact absurd h1 h
  · rfl

theorem parenNumSubAux_id : ∀ (fuel : Nat) {s : Str}, '(' ∉ s →
    parenNumSubAux fuel s = s := by
  intro fuel
  induction fuel with
  | zero => intro s h; cases s <;> rfl
  | succ n ih =>
    intro s h
    cases s with
    | nil => rfl
    | cons c cs =>
      have hc : c ≠ '(' := fun hc => h (hc ▸ List.mem_cons_self c cs)
      rw [parenNumSubAux, parenNumMatchAt_none hc]
      exact congrArg (c :: ·) (ih (fun hm => h (List.mem_cons_of_mem c hm)))

theorem parenDropMatchAt_none {c : Char} {cs : Str} (h : c ≠ '(') :
    parenDropMatchAt (c :: cs) = none := by
  unfold parenDropMatchAt
  split
  · rename_i t heq
    injection heq with h1 _
    exact absurd h1 h
  · rfl

theorem parenDropSubAux_id : ∀ (fuel : Nat) {s : Str}, '(' ∉ s →
    parenDropSubAux fuel s = s := by
  intro fuel
  induction fuel with
  | zero => intro s h; cases s <;> rfl
  | succ n ih =>
    intro s h
    cases s with
    | nil => rfl
    | cons c cs =>
      have hc : c ≠ '(' := fun hc => h (hc ▸ List.mem_cons_self c cs)
      rw [parenDropSubAux, parenDropMatchAt_none hc]
      exact congrArg (c :: ·) (ih (fun hm => h (List.mem_cons_of_mem c hm)))

theorem dxdMatchAt_some_seed {s r : Str} (h : dxdMatchAt s = some r) : HasSeed s := by
  obtain ⟨t, h1, h2, h3, -⟩ := dxdMatchAt_eq h
  obtain ⟨e, t', rfl, he⟩ : ∃ e t', t = e :: t' ∧ isDigitCh e = true := by
    cases t with
    | nil => simp at h3
    | cons e t' =>
      cases he : isDigitCh e
      · rw [List.takeWhile_cons, if_neg (by simp [he])] at h3
        exact absurd rfl h3
      · exact ⟨e, t', rfl, he⟩
  have hDne : s.takeWhile isDigitCh ≠ [] := h2
  have hd : isDigitCh ((s.takeWhile isDigitCh).getLast hDne) = true :=
    List.mem_takeWhile_imp (List.getLast_mem hDne)
  have hsplit : s.takeWhile isDigitCh =
      (s.takeWhile isDigitCh).dropLast ++ [(s.takeWhile isDigitCh).getLast hDne] :=
    (List.dropLast_append_getLast hDne).symm
  refine ⟨(s.takeWhile isDigitCh).dropLast, (s.takeWhile isDigitCh).getLast hDne,
    e, t', ?_, hd, he⟩
  conv_lhs => rw [← List.takeWhile_append_dropWhile isDigitCh s, h1, hsplit]
  simp

theorem noSeed_dxdSubAux_id : ∀ (fuel : Nat) {s : Str}, ¬ HasSeed s →
    dxdSubAux fuel s = s := by
  intro fuel
  induction fuel with
  | zero => intro s h; cases s <;> rfl
  | succ n ih =>
    intro s h
    cases s with
    | nil => rfl
    | cons c cs =>
      cases hm : dxdMatchAt (c :: cs) with
      | some r => exact absurd (dxdMatchAt_some_seed hm) h
      | none =>
        rw [dxdSubAux, hm]
        exact congrArg (c :: ·) (ih (fun hcs => h (hasSeed_cons hcs)))

/-! ### Canonical whitespace shape

`re.sub(r'\s+', ' ', s).strip()` leaves a string whose whitespace is single
spaces with non-whitespace on both ends; on such strings both rewrites are
the identity. -/

theorem collapseWsAux_fuel : ∀ (f1 f2 : Nat) (s : Str), s.length ≤ f1 →
    s.length ≤ f2 → collapseWsAux f1 s = collapseWsAux f2 s := by
  intro f1
  induction f1 with
  | zero =>
    intro f2 s h1 _
    have hs : s = [] := List.length_eq_zero.mp (Nat.le_zero.mp h1)
    subst hs
    cases f2 <;> rfl
  | succ n ih =>
    intro f2 s h1 h2
    cases s with
    | nil => cases f2 <;> rfl
    | cons c cs =>
      cases f2 with
      | zero => simp at h2
      | succ m =>
        rw [collapseWsAux, collapseWsAux]
        simp only [List.length_cons] at h1 h2
        by_cases hc : isWs c = true
        · rw [if_pos hc, if_pos hc]
          have hlen := dropWhileLengthLe isWs cs
          exact congrArg (' ' :: ·) (ih m _ (by omega) (by omega))
        · rw [if_neg hc, if_neg hc]
          exact congrArg (c :: ·) (ih m _ (by omega) (by omega))

theorem collapseWs_cons_ws {c : Char} {cs : Str} (h : isWs c = true) :
    collapseWs (c :: cs) = ' ' :: collapseWs (cs.dropWhile isWs) := by
  show collapseWsAux (cs.length + 1) (c :: cs) = _
  rw [collapseWsAux, if_pos h]
  exact congrArg (' ' :: ·) (collapseWsAux_fuel _ _ _ (dropWhileLengthLe _ _) le_rfl)

theorem collapseWs_cons_nonws {c : Char} {cs : Str} (h : isWs c = false) :
    collapseWs (c :: cs) = c :: collapseWs cs := by
  show collapseWsAux (cs.length + 1) (c :: cs) = _
  rw [collapseWsAux, if_neg (by simp [h])]
  rfl

theorem dropWordRunAux_fuel (w : Str) : ∀ (f1 f2 : Nat) (s : Str), s.length ≤ f1 →
    s.length ≤ f2 → dropWordRunAux w f1 s = dropWordRunAux w f2 s := by
  intro f1
  induction f1 with
  | zero =>
    intro f2 s h1 _
    have hs : s = [] := List.length_eq_zero.mp (Nat.le_zero.mp h1)
    subst hs
    cases f2 <;> rfl
  | succ n ih =>
    intro f2 s h1 h2
    cases s with
    | nil => cases f2 <;> rfl
    | cons c cs =>
      cases f2 with
      | zero => simp at h2
      | succ m =>
        rw [dropWordRunAux, dropWordRunAux]
        simp only [List.length_cons] at h1 h2
        by_cases hc : isWordChar c = true
        · rw [if_pos hc, if_pos hc]
          have hlen := dropWhileLengthLe isWordChar cs
          exact congrArg _ (ih m _ (by omega) (by omega))
        · rw [if_neg hc, if_neg hc]
          exact congrArg (c :: ·) (ih m _ (by omega) (by omega))

theorem dropWordRun_cons_word {w : Str} {c : Char} {cs : Str} (h : isWordChar c = true) :
    dropWordRun w (c :: cs) =
      (if c :: cs.takeWhile isWordChar = w then [] else c :: cs.takeWhile isWordChar) ++
        dropWordRun w (cs.dropWhile isWordChar) := by
  show dropWordRunAux w (cs.length + 1) (c :: cs) = _
  rw [dropWordRunAux, if_pos h]
  exact congrArg _ (dropWordRunAux_fuel w _ _ _ (dropWhileLengthLe _ _) le_rfl)

theorem dropWordRun_cons_nonword {w : Str} {c : Char} {cs : Str} (h : isWordChar c = false) :
    dropWordRun w (c :: cs) = c :: dropWordRun w cs := by
  show dropWordRunAux w (cs.length + 1) (c :: cs) = _
  rw [dropWordRunAux, if_neg (by simp [h])]
  rfl

/-- Whitespace is canonical: every whitespace character is a single space
followed by a non-whitespace character (or the end). -/
def wsSep : Str → Prop
  | [] => True
  | [c] => isWs c = true → c = ' '
  | c :: d :: cs => (isWs c = true → c = ' ' ∧ isWs d = false) ∧ wsSep (d :: cs)

theorem wsSep_tail {c : Char} {cs : Str} (h : wsSep (c :: cs)) : wsSep cs := by
  cases cs with
  | nil => trivial
  | cons d ds => exact h.2

theorem wsSep_head_space {c : Char} {cs : Str} (h : wsSep (c :: cs))
    (hws : isWs c = true) : c = ' ' := by
  cases cs with
  | nil => exact h hws
  | cons d ds => exact (h.1 hws).1

theorem wsSep_head_next {c d : Char} {ds : Str} (h : wsSep (c :: d :: ds))
    (hws : isWs c = true) : isWs d = false :=
  (h.1 hws).2

theorem wsSep_append_right : ∀ {u v : Str}, wsSep (u ++ v) → wsSep v := by
  intro u
  induction u with
  | nil => exact fun h => h
  | cons c us ih => exact fun h => ih (wsSep_tail h)

theorem wsSep_append_left : ∀ {u v : Str}, wsSep (u ++ v) → wsSep u := by
  intro u
  induction u with
  | nil => intro v _; trivial
  | cons c us ih =>
    intro v h
    cases us with
    | nil =>
      intro hws
      exact wsSep_head_space h hws
    | cons d ds => exact ⟨h.1, ih (wsSep_tail h)⟩

theorem dropWhile_head_false (p : Char → Bool) (l : Str) :
    l.dropWhile p = [] ∨ ∃ c cs, l.dropWhile p = c :: cs ∧ p c = false := by
  induction l with
  | nil => exact Or.inl rfl
  | cons a as ih =>
    cases hpa : p a with
    | true => rw [List.dropWhile_cons, if_pos hpa]; exact ih
    | false =>
      rw [List.dropWhile_cons, if_neg (by simp [hpa])]
      exact Or.inr ⟨a, as, rfl, hpa⟩

theorem wsSep_collapse : ∀ (k : Nat) (s : Str), s.length ≤ k → wsSep (collapseWs s) := by
  intro k
  induction k with
  | zero =>
    intro s h
    have hs : s = [] := List.length_eq_zero.mp (Nat.le_zero.mp h)
    subst hs
    trivial
  | succ n ih =>
    intro s h
    cases s with
    | nil => trivial
    | cons c cs =>
      simp only [List.length_cons] at h
      by_cases hc : isWs c = true
      · rw [collapseWs_cons_ws hc]
        have hrec := ih (cs.dropWhile isWs) (le_trans (dropWhileLengthLe _ _) (by omega))
        cases hX : collapseWs (cs.dropWhile isWs) with
        | nil => intro _; rfl
        | cons x xs =>
          refine ⟨fun _ => ⟨rfl, ?_⟩, hX ▸ hrec⟩
          rcases dropWhile_head_false isWs cs with hr | ⟨r0, rs, hr, hr0⟩
          · rw [hr] at hX
            exact absurd hX (by simp [collapseWs, collapseWsAux])
          · rw [hr, collapseWs_cons_nonws hr0] at hX
            injection hX with h1 _
            rw [← h1]
            exact hr0
      · have hc' : isWs c = false := by cases hcc : isWs c; rfl; exact absurd hcc hc
        rw [collapseWs_cons_nonws hc']
        have hrec := ih cs (by omega)
        cases hX : collapseWs cs with
        | nil => intro hws; exact absurd hws hc
        | cons x xs =>
          exact ⟨fun hws => absurd hws hc, hX ▸ hrec⟩

theorem collapseWs_id : ∀ (k : Nat) (s : Str), s.length ≤ k → wsSep s →
    collapseWs s = s := by
  intro k
  induction k with
  | zero =>
    intro s h _
    have hs : s = [] := List.length_eq_zero.mp (Nat.le_zero.mp h)
    subst hs
    rfl
  | succ n ih =>
    intro s h hsep
    cases s with
    | nil => rfl
    | cons c cs =>
      simp only [List.length_cons] at h
      by_cases hc : isWs c = true
      · rw [collapseWs_cons_ws hc, wsSep_head_space hsep hc]
        cases cs with
        | nil => rfl
        | cons d ds =>
          rw [List.dropWhile_cons, if_neg (by simp [wsSep_head_next hsep hc])]
          rw [ih (d :: ds) (by simp only [List.length_cons] at h ⊢; omega) (wsSep_tail hsep)]
      · have hc' : isWs c = false := by cases hcc : isWs c; rfl; exact absurd hcc hc
        rw [collapseWs_cons_nonws hc', ih cs (by omega) (wsSep_tail hsep)]

theorem stripWs_decomp (l : Str) :
    l.dropWhile isWs = stripWs l ++ ((l.dropWhile isWs).reverse.takeWhile isWs).reverse := by
  have h2 : (l.dropWhile isWs).reverse =
      (l.dropWhile isWs).reverse.takeWhile isWs ++ (l.dropWhile isWs).reverse.dropWhile isWs :=
    (List.takeWhile_append_dropWhile _ _).symm
  conv_lhs => rw [← List.reverse_reverse (l.dropWhile isWs), h2]
  rw [List.reverse_append]
  rfl

theorem stripWs_split (l : Str) :
    ∃ a b, l = a ++ stripWs l ++ b ∧ (∀ c ∈ a, isWs c = true) ∧ (∀ c ∈ b, isWs c = true) := by
  refine ⟨l.takeWhile isWs, ((l.dropWhile isWs).reverse.takeWhile isWs).reverse, ?_, ?_, ?_⟩
  · conv_lhs => rw [← List.takeWhile_append_dropWhile isWs l, stripWs_decomp l]
    rw [List.append_assoc]
  · exact fun c hc => List.mem_takeWhile_imp hc
  · intro c hc
    rw [List.mem_reverse] at hc
    exact List.mem_takeWhile_imp hc

theorem stripWs_last (l : Str) :
    stripWs l = [] ∨ ∃ m d, stripWs l = m ++ [d] ∧ isWs d = false := by
  rcases dropWhile_head_false isWs (l.dropWhile isWs).reverse with hB | ⟨c, cs, hB, hc⟩
  · left
    unfold stripWs
    rw [hB]
    rfl
  · right
    refine ⟨cs.reverse, c, ?_, hc⟩
    unfold stripWs
    rw [hB]
    simp

theorem stripWs_head (l : Str) :
    stripWs l = [] ∨ ∃ c cs, stripWs l = c :: cs ∧ isWs c = false := by
  rcases dropWhile_head_false isWs l with hA | ⟨c, cs, hA, hc⟩
  · left
    unfold stripWs
    rw [hA]
    rfl
  · have hd := stripWs_decomp l
    rw [hA] at hd
    cases hS : stripWs l with
    | nil => exact Or.inl rfl
    | cons s0 ss =>
      rw [hS] at hd
      injection hd with h1 _
      exact Or.inr ⟨s0, ss, rfl, h1 ▸ hc⟩

theorem stripWs_id_of {l : Str}
    (h1 : l = [] ∨ ∃ c cs, l = c :: cs ∧ isWs c = false)
    (h2 : l = [] ∨ ∃ m d, l = m ++ [d] ∧ isWs d = false) : stripWs l = l := by
  rcases h1 with rfl | ⟨c, cs, rfl, hc⟩
  · rfl
  rcases h2 with habs | ⟨m, d, hmd, hd⟩
  · exact absurd habs (by simp)
  unfold stripWs
  rw [List.dropWhile_cons, if_neg (by simp [hc]), hmd, List.reverse_append]
  simp [List.dropWhile_cons, hd]

/-! ### Stop-word runs

`re.sub(r'\bw\b', '', s)` for an all-word-character `w` deletes exactly the
maximal word-character runs equal to `w` (`dropWordRun`).  `hasRun w s`
decides whether such a run occurs; a pass of the rewrite clears it, no later
stage of the pipeline re-creates it, and on a run-free string the rewrite is
the identity. -/

def hasRunAux (w : Str) : Nat → Str → Bool
  | _, [] => false
  | 0, _ => false
  | fuel + 1, c :: cs =>
    if isWordChar c then
      if c :: cs.takeWhile isWordChar = w then true
      else hasRunAux w fuel (cs.dropWhile isWordChar)
    else hasRunAux w fuel cs

/-- Some maximal word-character run of `s` equals `w`. -/
def hasRun (w s : Str) : Bool := hasRunAux w s.length s

theorem hasRunAux_fuel (w : Str) : ∀ (f1 f2 : Nat) (s : Str), s.length ≤ f1 →
    s.length ≤ f2 → hasRunAux w f1 s = hasRunAux w f2 s := by
  intro f1
  induction f1 with
  | zero =>
    intro f2 s h1 _
    have hs : s = [] := List.length_eq_zero.mp (Nat.le_zero.mp h1)
    subst hs
    cases f2 <;> rfl
  | succ n ih =>
    intro f2 s h1 h2
    cases s with
    | nil => cases f2 <;> rfl
    | cons c cs =>
      cases f2 with
      | zero => simp at h2
      | succ m =>
        rw [hasRunAux, hasRunAux]
        simp only [List.length_cons] at h1 h2
        by_cases hc : isWordChar c = true
        · rw [if_pos hc, if_pos hc]
          by_cases hrw : c :: cs.takeWhile isWordChar = w
          · rw [if_pos hrw, if_pos hrw]
          · rw [if_neg hrw, if_neg hrw]
            have hlen := dropWhileLengthLe isWordChar cs
            exact ih m _ (by omega) (by omega)
        · rw [if_neg hc, if_neg hc]
          exact ih m _ (by omega) (by omega)

theorem hasRun_cons_word {w : Str} {c : Char} {cs : Str} (h : isWordChar c = true) :
    hasRun w (c :: cs) =
      if c :: cs.takeWhile isWordChar = w then true
      else hasRun w (cs.dropWhile isWordChar) := by
  show hasRunAux w (cs.length + 1) (c :: cs) = _
  rw [hasRunAux, if_pos h]
  by_cases hrw : c :: cs.takeWhile isWordChar = w
  · rw [if_pos hrw, if_pos hrw]
  · rw [if_neg hrw, if_neg hrw]
    exact hasRunAux_fuel w _ _ _ (dropWhileLengthLe _ _) le_rfl

theorem hasRun_cons_nonword {w : Str} {c : Char} {cs : Str} (h : isWordChar c = false) :
    hasRun w (c :: cs) = hasRun w cs := by
  show hasRunAux w (cs.length + 1) (c :: cs) = _
  rw [hasRunAux, if_neg (by simp [h])]
  rfl

theorem takeWhile_all_append {p : Char → Bool} {A B : Str}
    (h : ∀ c ∈ A, p c = true) : (A ++ B).takeWhile p = A ++ B.takeWhile p := by
  induction A with
  | nil => simp
  | cons a as ih =>
    rw [List.cons_append, List.takeWhile_cons, if_pos (h a (by simp))]
    rw [ih (fun c hc => h c (by simp [hc]))]
    rfl

theorem dropWhile_all_append {p : Char → Bool} {A B : Str}
    (h : ∀ c ∈ A, p c = true) : (A ++ B).dropWhile p = B.dropWhile p := by
  induction A with
  | nil => simp
  | cons a as ih =>
    rw [List.cons_append, List.dropWhile_cons, if_pos (h a (by simp))]
    exact ih (fun c hc => h c (by simp [hc]))

theorem takeWhile_nil_of_all {p : Char → Bool} {b : Str} (h : ∀ c ∈ b, p c = false) :
    b.takeWhile p = [] := by
  cases b with
  | nil => rfl
  | cons x xs => rw [List.takeWhile_cons, if_neg (by simp [h x (by simp)])]

theorem dropWhile_id_of_all {p : Char → Bool} {b : Str} (h : ∀ c ∈ b, p c = false) :
    b.dropWhile p = b := by
  cases b with
  | nil => rfl
  | cons x xs => rw [List.dropWhile_cons, if_neg (by simp [h x (by simp)])]

theorem hasRun_all_nonword_append {w A B : Str} (h : ∀ c ∈ A, isWordChar c = false) :
    hasRun w (A ++ B) = hasRun w B := by
  induction A with
  | nil => rfl
  | cons a as ih =>
    rw [List.cons_append, hasRun_cons_nonword (h a (by simp))]
    exact ih (fun c hc => h c (by simp [hc]))

theorem hasRun_word_append {w : Str} {c : Char} {A B : Str}
    (hc : isWordChar c = true) (hA : ∀ x ∈ A, isWordChar x = true)
    (hB : B = [] ∨ ∃ b0 bs, B = b0 :: bs ∧ isWordChar b0 = false) :
    hasRun w ((c :: A) ++ B) = if c :: A = w then true else hasRun w B := by
  rw [List.cons_append, hasRun_cons_word hc]
  have ht : (A ++ B).takeWhile isWordChar = A := by
    rw [takeWhile_all_append hA]
    rcases hB with rfl | ⟨b0, bs, rfl, hb0⟩
    · simp
    · rw [List.takeWhile_cons, if_neg (by simp [hb0])]
      simp
  have hd : (A ++ B).dropWhile isWordChar = B := by
    rw [dropWhile_all_append hA]
    rcases hB with rfl | ⟨b0, bs, rfl, hb0⟩
    · rfl
    · rw [List.dropWhile_cons, if_neg (by simp [hb0])]
  rw [ht, hd]

theorem dropWordRun_head_shape {w : Str} {r : Str}
    (h : r = [] ∨ ∃ r0 rs, r = r0 :: rs ∧ isWordChar r0 = false) :
    dropWordRun w r = [] ∨
      ∃ b0 bs, dropWordRun w r = b0 :: bs ∧ isWordChar b0 = false := by
  rcases h with rfl | ⟨r0, rs, rfl, hr0⟩
  · exact Or.inl rfl
  · rw [dropWordRun_cons_nonword hr0]
    exact Or.inr ⟨r0, dropWordRun w rs, rfl, hr0⟩

theorem dropWordRun_id_of : ∀ (k : Nat) {w s : Str}, s.length ≤ k →
    hasRun w s = false → dropWordRun w s = s := by
  intro k
  induction k with
  | zero =>
    intro w s hl _
    have hs : s = [] := List.length_eq_zero.mp (Nat.le_zero.mp hl)
    subst hs
    rfl
  | succ n ih =>
    intro w s hl hr
    cases s with
    | nil => rfl
    | cons c cs =>
      simp only [List.length_cons] at hl
      by_cases hc : isWordChar c = true
      · rw [hasRun_cons_word hc] at hr
        by_cases hrw : c :: cs.takeWhile isWordChar = w
        · rw [if_pos hrw] at hr
          exact absurd hr (by simp)
        · rw [if_neg hrw] at hr
          rw [dropWordRun_cons_word hc, if_neg hrw,
            ih (le_trans (dropWhileLengthLe _ _) (by omega)) hr]
          rw [List.cons_append, List.takeWhile_append_dropWhile]
      · have hc' : isWordChar c = false := by
          cases h2 : isWordChar c
          · rfl
          · exact absurd h2 hc
        rw [hasRun_cons_nonword hc'] at hr
        rw [dropWordRun_cons_nonword hc', ih (by omega) hr]

theorem hasRun_dropWordRun_self : ∀ (k : Nat) {w s : Str}, s.length ≤ k →
    hasRun w (dropWordRun w s) = false := by
  intro k
  induction k with
  | zero =>
    intro w s hl
    have hs : s = [] := List.length_eq_zero.mp (Nat.le_zero.mp hl)
    subst hs
    rfl
  | succ n ih =>
    intro w s hl
    cases s with
    | nil => rfl
    | cons c cs =>
      simp only [List.length_cons] at hl
      by_cases hc : isWordChar c = true
      · rw [dropWordRun_cons_word hc]
        have hB := dropWordRun_head_shape (w := w) (dropWhile_head_false isWordChar cs)
        have hlen : (cs.dropWhile isWordChar).length ≤ n :=
          le_trans (dropWhileLengthLe _ _) (by omega)
        by_cases hrw : c :: cs.takeWhile isWordChar = w
        · rw [if_pos hrw, List.nil_append]
          exact ih hlen
        · rw [if_neg hrw,
            hasRun_word_append hc (fun x hx => List.mem_takeWhile_imp hx) hB,
            if_neg hrw]
          exact ih hlen
      · have hc' : isWordChar c = false := by
          cases h2 : isWordChar c
          · rfl
          · exact absurd h2 hc
        rw [dropWordRun_cons_nonword hc', hasRun_cons_nonword hc']
        exact ih (by omega)

theorem hasRun_dropWordRun_other : ∀ (k : Nat) {w w' s : Str}, s.length ≤ k →
    hasRun w (dropWordRun w' s) = true → hasRun w s = true := by
  intro k
  induction k with
  | zero =>
    intro w w' s hl h
    have hs : s = [] := List.length_eq_zero.mp (Nat.le_zero.mp hl)
    subst hs
    exact h
  | succ n ih =>
    intro w w' s hl h
    cases s with
    | nil => exact h
    | cons c cs =>
      simp only [List.length_cons] at hl
      by_cases hc : isWordChar c = true
      · rw [dropWordRun_cons_word hc] at h
        have hB := dropWordRun_head_shape (w := w') (dropWhile_head_false isWordChar cs)
        have hlen : (cs.dropWhile isWordChar).length ≤ n :=
          le_trans (dropWhileLengthLe _ _) (by omega)
        rw [hasRun_cons_word hc]
        by_cases hrw : c :: cs.takeWhile isWordChar = w
        · rw [if_pos hrw]
        · rw [if_neg hrw]
          by_cases hrw' : c :: cs.takeWhile isWordChar = w'
          · rw [if_pos hrw', List.nil_append] at h
            exact ih hlen h
          · rw [if_neg hrw',
              hasRun_word_append hc (fun x hx => List.mem_takeWhile_imp hx) hB,
              if_neg hrw] at h
            exact ih hlen h
      · have hc' : isWordChar c = false := by
          cases h2 : isWordChar c
          · rfl
          · exact absurd h2 hc
        rw [dropWordRun_cons_nonword hc', hasRun_cons_nonword hc'] at h
        rw [hasRun_cons_nonword hc']
        exact ih (by omega) h

theorem collapseWs_copy_append {A r : Str} (h : ∀ a ∈ A, isWs a = false) :
    collapseWs (A ++ r) = A ++ collapseWs r := by
  induction A with
  | nil => rfl
  | cons a as ih =>
    rw [List.cons_append, collapseWs_cons_nonws (h a (by simp))]
    rw [ih (fun c hc => h c (by simp [hc]))]
    rfl

theorem collapseWs_head_shape {r : Str}
    (h : r = [] ∨ ∃ r0 rs, r = r0 :: rs ∧ isWordChar r0 = false) :
    collapseWs r = [] ∨ ∃ b0 bs, collapseWs r = b0 :: bs ∧ isWordChar b0 = false := by
  rcases h with rfl | ⟨r0, rs, rfl, hr0⟩
  · exact Or.inl rfl
  · by_cases hws : isWs r0 = true
    · rw [collapseWs_cons_ws hws]
      exact Or.inr ⟨' ', _, rfl, by decide⟩
    · have hws' : isWs r0 = false := by
        cases h2 : isWs r0
        · rfl
        · exact absurd h2 hws
      rw [collapseWs_cons_nonws hws']
      exact Or.inr ⟨r0, _, rfl, hr0⟩

theorem hasRun_collapseWs : ∀ (k : Nat) {w s : Str}, s.length ≤ k →
    hasRun w (collapseWs s) = true → hasRun w s = true := by
  intro k
  induction k with
  | zero =>
    intro w s hl h
    have hs : s = [] := List.length_eq_zero.mp (Nat.le_zero.mp hl)
    subst hs
    exact h
  | succ n ih =>
    intro w s hl h
    cases s with
    | nil => exact h
    | cons c cs =>
      simp only [List.length_cons] at hl
      by_cases hws : isWs c = true
      · rw [collapseWs_cons_ws hws, hasRun_cons_nonword (by decide)] at h
        have h2 := ih (le_trans (dropWhileLengthLe _ _) (by omega)) h
        rw [hasRun_cons_nonword (ws_not_word hws)]
        conv_lhs => rw [← List.takeWhile_append_dropWhile isWs cs]
        rw [hasRun_all_nonword_append (fun x hx => ws_not_word (List.mem_takeWhile_imp hx))]
        exact h2
      · have hws' : isWs c = false := by
          cases h2 : isWs c
          · rfl
          · exact absurd h2 hws
        rw [collapseWs_cons_nonws hws'] at h
        by_cases hc : isWordChar c = true
        · have hA : ∀ x ∈ cs.takeWhile isWordChar, isWs x = false :=
            fun x hx => word_not_ws (List.mem_takeWhile_imp hx)
          have hcs : collapseWs cs =
              cs.takeWhile isWordChar ++ collapseWs (cs.dropWhile isWordChar) := by
            conv_lhs => rw [← List.takeWhile_append_dropWhile isWordChar cs]
            exact collapseWs_copy_append hA
          rw [hcs, ← List.cons_append] at h
          have hB := collapseWs_head_shape (dropWhile_head_false isWordChar cs)
          rw [hasRun_word_append hc (fun x hx => List.mem_takeWhile_imp hx) hB] at h
          rw [hasRun_cons_word hc]
          by_cases hrw : c :: cs.takeWhile isWordChar = w
          · rw [if_pos hrw]
          · rw [if_neg hrw] at h ⊢
            exact ih (le_trans (dropWhileLengthLe _ _) (by omega)) h
        · have hc' : isWordChar c = false := by
            cases h2 : isWordChar c
            · rfl
            · exact absurd h2 hc
          rw [hasRun_cons_nonword hc'] at h ⊢
          exact ih (by omega) h

theorem hasRun_append_nonword : ∀ (k : Nat) {w t b : Str}, t.length ≤ k →
    (∀ c ∈ b, isWordChar c = false) → hasRun w t = true →
    hasRun w (t ++ b) = true := by
  intro k
  induction k with
  | zero =>
    intro w t b hl _ h
    have ht : t = [] := List.length_eq_zero.mp (Nat.le_zero.mp hl)
    subst ht
    exact Bool.noConfusion h
  | succ n ih =>
    intro w t b hl hb h
    cases t with
    | nil => exact Bool.noConfusion h
    | cons c cs =>
      simp only [List.length_cons] at hl
      rw [List.cons_append]
      by_cases hc : isWordChar c = true
      · rw [hasRun_cons_word hc] at h
        rcases dropWhile_head_false isWordChar cs with hr | ⟨r0, rs, hr, hr0⟩
        · have htw : cs.takeWhile isWordChar = cs := by
            conv_rhs => rw [← List.takeWhile_append_dropWhile isWordChar cs]
            rw [hr, List.append_nil]
          have hall : ∀ x ∈ cs, isWordChar x = true := by
            intro x hx
            exact List.mem_takeWhile_imp (htw ▸ hx)
          rw [hasRun_cons_word hc, takeWhile_all_append hall,
            takeWhile_nil_of_all hb, List.append_nil,
            dropWhile_all_append hall, dropWhile_id_of_all hb]
          rw [htw, hr] at h
          by_cases hrw : c :: cs = w
          · rw [if_pos hrw]
          · rw [if_neg hrw] at h ⊢
            exact Bool.noConfusion h
        · have hsplit : cs ++ b = cs.takeWhile isWordChar ++ ((r0 :: rs) ++ b) := by
            conv_lhs => rw [← List.takeWhile_append_dropWhile isWordChar cs, hr]
            rw [List.append_assoc]
          have htA : (cs ++ b).takeWhile isWordChar = cs.takeWhile isWordChar := by
            rw [hsplit, takeWhile_all_append (fun x hx => List.mem_takeWhile_imp hx)]
            rw [List.cons_append, List.takeWhile_cons, if_neg (by simp [hr0]),
              List.append_nil]
          have hdA : (cs ++ b).dropWhile isWordChar = (r0 :: rs) ++ b := by
            rw [hsplit, dropWhile_all_append (fun x hx => List.mem_takeWhile_imp hx)]
            rw [List.cons_append, List.dropWhile_cons, if_neg (by simp [hr0])]
          rw [hasRun_cons_word hc, htA, hdA]
          rw [hr] at h
          by_cases hrw : c :: cs.takeWhile isWordChar = w
          · rw [if_pos hrw]
          · rw [if_neg hrw] at h ⊢
            have hlen : (r0 :: rs).length ≤ n := by
              have hd := dropWhileLengthLe isWordChar cs
              rw [hr] at hd
              simp only [List.length_cons] at hd ⊢
              omega
            exact ih hlen hb h
      · have hc' : isWordChar c = false := by
          cases h2 : isWordChar c
          · rfl
          · exact absurd h2 hc
        rw [hasRun_cons_nonword hc'] at h
        rw [hasRun_cons_nonword hc']
        exact ih (by omega) hb h

theorem hasRun_stripWs {w s : Str} (h : hasRun w (stripWs s) = true) :
    hasRun w s = true := by
  obtain ⟨a, b, hs, ha, hb⟩ := stripWs_split s
  rw [hs, List.append_assoc,
    hasRun_all_nonword_append (fun c hc => ws_not_word (ha c hc))]
  exact hasRun_append_nonword _ le_rfl (fun c hc => ws_not_word (hb c hc)) h

/-! ### No stage after the `NxNN` deletion re-creates a seed -/

theorem hasSeed_dropWordRun : ∀ (k : Nat) {w s : Str}, s.length ≤ k →
    HasSeed (dropWordRun w s) → HasSeed s := by
  intro k
  induction k with
  | zero =>
    intro w s hl h
    have hs : s = [] := List.length_eq_zero.mp (Nat.le_zero.mp hl)
    subst hs
    exact h
  | succ n ih =>
    intro w s hl h
    cases s with
    | nil => exact h
    | cons c cs =>
      simp only [List.length_cons] at hl
      by_cases hc : isWordChar c = true
      · rw [dropWordRun_cons_word hc] at h
        have hlen : (cs.dropWhile isWordChar).length ≤ n :=
          le_trans (dropWhileLengthLe _ _) (by omega)
        have hsplit : (c :: cs : Str) =
            (c :: cs.takeWhile isWordChar) ++ cs.dropWhile isWordChar := by
          rw [List.cons_append, List.takeWhile_append_dropWhile]
        by_cases hrw : c :: cs.takeWhile isWordChar = w
        · rw [if_pos hrw, List.nil_append] at h
          rw [hsplit]
          exact hasSeed_append_right (ih hlen h)
        · rw [if_neg hrw] at h
          rcases hasSeed_append_cases h with h1 | h1 | h1 | h1
          · rw [hsplit]
            exact hasSeed_append_left h1
          · rw [hsplit]
            exact hasSeed_append_right (ih hlen h1)
          · obtain ⟨a, d, e, b, h2, h3, hd, he⟩ := h1
            rcases dropWordRun_head_shape (w := w) (dropWhile_head_false isWordChar cs)
              with h4 | ⟨b0, bs, h4, hb0⟩
            · rw [h4] at h3
              exact absurd h3 (by simp)
            · rw [h4] at h3
              injection h3 with h5 _
              rw [h5] at hb0
              exact absurd hb0 (by decide)
          · obtain ⟨a, d, e, b, h2, h3, hd, he⟩ := h1
            rcases dropWordRun_head_shape (w := w) (dropWhile_head_false isWordChar cs)
              with h4 | ⟨b0, bs, h4, hb0⟩
            · rw [h4] at h3
              exact absurd h3 (by simp)
            · rw [h4] at h3
              injection h3 with h5 _
              rw [h5] at hb0
              exact absurd (digit_word he) (by simp [hb0])
      · have hc' : isWordChar c = false := by
          cases h2 : isWordChar c
          · rfl
          · exact absurd h2 hc
        rw [dropWordRun_cons_nonword hc'] at h
        rcases hasSeed_elim_cons h with ⟨hdc, e, b, hout, he⟩ | htail
        · exact absurd (digit_word hdc) (by simp [hc'])
        · exact hasSeed_cons (ih (by omega) htail)

theorem hasSeed_collapseWs : ∀ (k : Nat) {s : Str}, s.length ≤ k →
    HasSeed (collapseWs s) → HasSeed s := by
  intro k
  induction k with
  | zero =>
    intro s hl h
    have hs : s = [] := List.length_eq_zero.mp (Nat.le_zero.mp hl)
    subst hs
    exact h
  | succ n ih =>
    intro s hl h
    cases s with
    | nil => exact h
    | cons c cs =>
      simp only [List.length_cons] at hl
      by_cases hws : isWs c = true
      · rw [collapseWs_cons_ws hws] at h
        rcases hasSeed_elim_cons h with ⟨hdc, e, b, hout, he⟩ | htail
        · exact absurd hdc (by decide)
        · have h2 := ih (le_trans (dropWhileLengthLe _ _) (by omega)) htail
          have h3 : (cs : Str) = cs.takeWhile isWs ++ cs.dropWhile isWs :=
            (List.takeWhile_append_dropWhile _ _).symm
          exact hasSeed_cons (by rw [h3]; exact hasSeed_append_right h2)
      · have hws' : isWs c = false := by
          cases h2 : isWs c
          · rfl
          · exact absurd h2 hws
        rw [collapseWs_cons_nonws hws'] at h
        rcases hasSeed_elim_cons h with ⟨hdc, e, b, hout, he⟩ | htail
        · cases cs with
          | nil =>
            rw [show collapseWs ([] : Str) = [] from rfl] at hout
            exact absurd hout (by simp)
          | cons h0 t =>
            by_cases hws0 : isWs h0 = true
            · rw [collapseWs_cons_ws hws0] at hout
              injection hout with h5 _
              exact absurd h5 (by decide)
            · have hws0' : isWs h0 = false := by
                cases h2 : isWs h0
                · rfl
                · exact absurd h2 hws0
              rw [collapseWs_cons_nonws hws0'] at hout
              injection hout with h5 h6
              subst h5
              cases t with
              | nil =>
                rw [show collapseWs ([] : Str) = [] from rfl] at h6
                exact absurd h6 (by simp)
              | cons h1 t2 =>
                by_cases hws1 : isWs h1 = true
                · rw [collapseWs_cons_ws hws1] at h6
                  injection h6 with h7 _
                  rw [← h7] at he
                  exact absurd he (by decide)
                · have hws1' : isWs h1 = false := by
                    cases h2 : isWs h1
                    · rfl
                    · exact absurd h2 hws1
                  rw [collapseWs_cons_nonws hws1'] at h6
                  injection h6 with h7 _
                  exact ⟨[], c, h1, t2, rfl, hdc, by rw [h7]; exact he⟩
        · exact hasSeed_cons (ih (by omega) htail)

theorem hasSeed_stripWs {s : Str} (h : HasSeed (stripWs s)) : HasSeed s := by
  obtain ⟨a, b, hs, -, -⟩ := stripWs_split s
  rw [hs]
  exact hasSeed_append_left (hasSeed_append_right h)

/-! ### Shape of the normalizer's output -/

theorem normalizeTitle_t4_no_paren (s : Str) :
    '(' ∉ dxdSub (parenNumSub (partSub (lowerStr (subPunct s)))) := by
  intro hmem
  have h1 := dxdSubAux_mem _ _ _ hmem
  have h2 := parenNumSubAux_mem _ _ _ h1
  have h3 := partSubAux_mem _ _ _ h2
  have h4 := subPunct_lower_inert s _ h3
  rcases h4.1 with h5 | h5 <;> exact absurd h5 (by decide)

theorem normalizeTitle_noSeed (s : Str) : ¬ HasSeed (normalizeTitle s) := by
  have hteq : normalizeTitle s =
      stripWs (collapseWs (dropWordRun (strL "and") (dropWordRun (strL "the")
        (dropWordRun (strL "ep") (dropWordRun (strL "episode")
          (parenDropSub (dxdSub (parenNumSub (partSub (lowerStr (subPunct s))))))))))) := rfl
  rw [hteq]
  intro h
  have h1 := hasSeed_stripWs h
  have h2 := hasSeed_collapseWs _ le_rfl h1
  have h3 := hasSeed_dropWordRun _ le_rfl h2
  have h4 := hasSeed_dropWordRun _ le_rfl h3
  have h5 := hasSeed_dropWordRun _ le_rfl h4
  have h6 := hasSeed_dropWordRun _ le_rfl h5
  rw [show parenDropSub (dxdSub (parenNumSub (partSub (lowerStr (subPunct s))))) =
      dxdSub (parenNumSub (partSub (lowerStr (subPunct s)))) from
    parenDropSubAux_id _ (normalizeTitle_t4_no_paren s)] at h6
  exact noSeed_dxdSubAux _ _ le_rfl h6

theorem hasRun_false_dropWordRun {w w' s : Str} (h : hasRun w s = false) :
    hasRun w (dropWordRun w' s) = false := by
  cases h2 : hasRun w (dropWordRun w' s)
  · rfl
  · exact absurd (hasRun_dropWordRun_other _ le_rfl h2) (by simp [h])

theorem hasRun_false_collapseWs {w s : Str} (h : hasRun w s = false) :
    hasRun w (collapseWs s) = false := by
  cases h2 : hasRun w (collapseWs s)
  · rfl
  · exact absurd (hasRun_collapseWs _ le_rfl h2) (by simp [h])

theorem hasRun_false_stripWs {w s : Str} (h : hasRun w s = false) :
    hasRun w (stripWs s) = false := by
  cases h2 : hasRun w (stripWs s)
  · rfl
  · exact absurd (hasRun_stripWs h2) (by simp [h])

theorem normalizeTitle_noRun (s w : Str)
    (hw : w = strL "episode" ∨ w = strL "ep" ∨ w = strL "the" ∨ w = strL "and") :
    hasRun w (normalizeTitle s) = false := by
  have hteq : normalizeTitle s =
      stripWs (collapseWs (dropWordRun (strL "and") (dropWordRun (strL "the")
        (dropWordRun (strL "ep") (dropWordRun (strL "episode")
          (parenDropSub (dxdSub (parenNumSub (partSub (lowerStr (subPunct s))))))))))) := rfl
  rw [hteq]
  apply hasRun_false_stripWs
  apply hasRun_false_collapseWs
  rcases hw with rfl | rfl | rfl | rfl
  · apply hasRun_false_dropWordRun
    apply hasRun_false_dropWordRun
    apply hasRun_false_dropWordRun
    exact hasRun_dropWordRun_self _ le_rfl
  · apply hasRun_false_dropWordRun
    apply hasRun_false_dropWordRun
    exact hasRun_dropWordRun_self _ le_rfl
  · apply hasRun_false_dropWordRun
    exact hasRun_dropWordRun_self _ le_rfl
  · exact hasRun_dropWordRun_self _ le_rfl

theorem stripCollapse_idem (u : Str) :
    collapseWs (stripWs (collapseWs u)) = stripWs (collapseWs u) ∧
    stripWs (stripWs (collapseWs u)) = stripWs (collapseWs u) := by
  have h1 := wsSep_collapse u.length u le_rfl
  obtain ⟨a, b, hs, -, -⟩ := stripWs_split (collapseWs u)
  rw [hs] at h1
  have h2 := wsSep_append_right (wsSep_append_left h1)
  constructor
  · exact collapseWs_id (stripWs (collapseWs u)).length _ le_rfl h2
  · exact stripWs_id_of (stripWs_head _) (stripWs_last _)

/-! ## Word-splitting algebra for `generate_variations`

Support for the sequel guard of C2: `str.split()` distributes over a
whitespace separator, ignores leading/trailing whitespace, produces
whitespace-free nonempty words, and is a retraction of `' '.join`. -/

theorem pySplitAux_fuel : ∀ (f1 f2 : Nat) (s : Str), s.length ≤ f1 →
    s.length ≤ f2 → pySplitAux f1 s = pySplitAux f2 s := by
  intro f1
  induction f1 with
  | zero =>
    intro f2 s h1 _
    have hs : s = [] := List.length_eq_zero.mp (Nat.le_zero.mp h1)
    subst hs
    cases f2 <;> rfl
  | succ n ih =>
    intro f2 s h1 h2
    cases s with
    | nil => cases f2 <;> rfl
    | cons c cs =>
      cases f2 with
      | zero => simp at h2
      | succ m =>
        rw [pySplitAux, pySplitAux]
        simp only [List.length_cons] at h1 h2
        by_cases hc : isWs c = true
        · rw [if_pos hc, if_pos hc]
          exact ih m _ (by omega) (by omega)
        · rw [if_neg hc, if_neg hc]
          have hlen := dropWhileLengthLe (fun d => !isWs d) cs
          exact congrArg _ (ih m _ (by omega) (by omega))

theorem pySplit_cons_ws {c : Char} {cs : Str} (h : isWs c = true) :
    pySplit (c :: cs) = pySplit cs := by
  show pySplitAux (cs.length + 1) (c :: cs) = _
  rw [pySplitAux, if_pos h]
  rfl

theorem pySplit_cons_nonws {c : Char} {cs : Str} (h : isWs c = false) :
    pySplit (c :: cs) = (c :: cs.takeWhile (fun d => !isWs d)) ::
      pySplit (cs.dropWhile (fun d => !isWs d)) := by
  show pySplitAux (cs.length + 1) (c :: cs) = _
  rw [pySplitAux, if_neg (by simp [h])]
  exact congrArg _ (pySplitAux_fuel _ _ _ (dropWhileLengthLe _ _) le_rfl)

theorem pySplit_append_ws {m : Char} (hm : isWs m = true) :
    ∀ (k : Nat) (X Y : Str), X.length ≤ k →
    pySplit (X ++ m :: Y) = pySplit X ++ pySplit Y := by
  intro k
  induction k with
  | zero =>
    intro X Y hl
    have hs : X = [] := List.length_eq_zero.mp (Nat.le_zero.mp hl)
    subst hs
    rw [List.nil_append, pySplit_cons_ws hm]
    rfl
  | succ n ih =>
    intro X Y hl
    cases X with
    | nil =>
      rw [List.nil_append, pySplit_cons_ws hm]
      rfl
    | cons c X' =>
      simp only [List.length_cons] at hl
      by_cases hc : isWs c = true
      · rw [List.cons_append, pySplit_cons_ws hc, pySplit_cons_ws hc]
        exact ih X' Y (by omega)
      · have hc' : isWs c = false := by
          cases h2 : isWs c
          · rfl
          · exact absurd h2 hc
        rw [List.cons_append, pySplit_cons_nonws hc', pySplit_cons_nonws hc']
        by_cases hC : (X'.takeWhile (fun d => !isWs d)).length = X'.length
        · have hdn : X'.dropWhile (fun d => !isWs d) = [] := by
            have hlen := congrArg List.length (List.takeWhile_append_dropWhile
              (fun d => !isWs d) X')
            rw [List.length_append] at hlen
            have : (X'.dropWhile (fun d => !isWs d)).length = 0 := by omega
            exact List.length_eq_zero.mp this
          have htk : X'.takeWhile (fun d => !isWs d) = X' := by
            have := List.takeWhile_append_dropWhile (fun d => !isWs d) X'
            rw [hdn, List.append_nil] at this
            exact this
          have hall : ∀ x ∈ X', (fun d => !isWs d) x = true := by
            intro x hx
            rw [← htk] at hx
            have h3 := List.mem_takeWhile_imp hx
            exact h3
          rw [takeWhile_all_append hall, dropWhile_all_append hall]
          rw [List.takeWhile_cons, if_neg (by simp [hm]),
            List.dropWhile_cons, if_neg (by simp [hm])]
          rw [htk, hdn, pySplit_cons_ws hm]
          simp [show pySplit ([] : Str) = [] from rfl]
        · have hdn : X'.dropWhile (fun d => !isWs d) ≠ [] := by
            intro hnil
            have hlen := congrArg List.length (List.takeWhile_append_dropWhile
              (fun d => !isWs d) X')
            rw [List.length_append, hnil] at hlen
            simp at hlen
            exact hC hlen
          rw [List.takeWhile_append, if_neg hC, List.dropWhile_append]
          rw [if_neg (by simpa using hdn)]
          rw [ih (X'.dropWhile (fun d => !isWs d)) Y
            (le_trans (dropWhileLengthLe _ _) (by omega))]
          simp

theorem pySplit_allws {b : Str} (h : ∀ c ∈ b, isWs c = true) : pySplit b = [] := by
  induction b with
  | nil => rfl
  | cons c cs ih =>
    rw [pySplit_cons_ws (h c (by simp))]
    exact ih (fun d hd => h d (by simp [hd]))

theorem pySplit_allws_left {a z : Str} (h : ∀ c ∈ a, isWs c = true) :
    pySplit (a ++ z) = pySplit z := by
  induction a with
  | nil => rfl
  | cons c cs ih =>
    rw [List.cons_append, pySplit_cons_ws (h c (by simp))]
    exact ih (fun d hd => h d (by simp [hd]))

theorem pySplit_allws_right {z b : Str} (h : ∀ c ∈ b, isWs c = true) :
    pySplit (z ++ b) = pySplit z := by
  cases b with
  | nil => rw [List.append_nil]
  | cons m b' =>
    rw [pySplit_append_ws (h m (by simp)) z.length z b' le_rfl,
      show pySplit b' = [] from pySplit_allws (fun d hd => h d (by simp [hd])),
      List.append_nil]

theorem pySplit_stripWs (x : Str) : pySplit (stripWs x) = pySplit x := by
  obtain ⟨a, b, hs, ha, hb⟩ := stripWs_split x
  conv_rhs => rw [hs]
  rw [pySplit_allws_right hb, pySplit_allws_left ha]

theorem pySplit_mem_shape : ∀ (k : Nat) (s : Str), s.length ≤ k →
    ∀ w ∈ pySplit s, w ≠ [] ∧ ∀ c ∈ w, isWs c = false := by
  intro k
  induction k with
  | zero =>
    intro s hl w hw
    have hs : s = [] := List.length_eq_zero.mp (Nat.le_zero.mp hl)
    subst hs
    simp [pySplit, pySplitAux] at hw
  | succ n ih =>
    intro s hl w hw
    cases s with
    | nil => simp [pySplit, pySplitAux] at hw
    | cons c cs =>
      simp only [List.length_cons] at hl
      by_cases hc : isWs c = true
      · rw [pySplit_cons_ws hc] at hw
        exact ih cs (by omega) w hw
      · have hc' : isWs c = false := by
          cases h2 : isWs c
          · rfl
          · exact absurd h2 hc
        rw [pySplit_cons_nonws hc'] at hw
        rcases List.mem_cons.mp hw with rfl | hw2
        · refine ⟨by simp, ?_⟩
          intro d hd
          rcases List.mem_cons.mp hd with rfl | hd2
          · exact hc'
          · have := List.mem_takeWhile_imp hd2
            simpa using this
        · exact ih _ (le_trans (dropWhileLengthLe _ _) (by omega)) w hw2

theorem takeWhile_id_of_all {p : Char → Bool} : ∀ {w : Str},
    (∀ c ∈ w, p c = true) → w.takeWhile p = w := by
  intro w h
  induction w with
  | nil => rfl
  | cons d w2 ih =>
    rw [List.takeWhile_cons, if_pos (h d (by simp))]
    rw [ih (fun e he => h e (by simp [he]))]

theorem pySplit_single {w : Str} (hne : w ≠ []) (hnw : ∀ c ∈ w, isWs c = false) :
    pySplit w = [w] := by
  cases w with
  | nil => exact absurd rfl hne
  | cons c w' =>
    rw [pySplit_cons_nonws (hnw c (by simp))]
    have htk : w'.takeWhile (fun d => !isWs d) = w' :=
      takeWhile_id_of_all (fun d hd => by simp [hnw d (by simp [hd])])
    have hdp : w'.dropWhile (fun d => !isWs d) = [] := by
      have hsplit := List.takeWhile_append_dropWhile (fun d => !isWs d) w'
      rw [htk] at hsplit
      have hlen := congrArg List.length hsplit
      rw [List.length_append] at hlen
      have hz : (w'.dropWhile (fun d => !isWs d)).length = 0 := by omega
      exact List.length_eq_zero.mp hz
    rw [htk, hdp]
    rfl

theorem pySplit_join : ∀ (l : List Str),
    (∀ w ∈ l, w ≠ [] ∧ ∀ c ∈ w, isWs c = false) → pySplit (joinSp l) = l := by
  intro l
  induction l with
  | nil => intro _; rfl
  | cons w l' ih =>
    intro h
    cases l' with
    | nil =>
      show pySplit w = [w]
      exact pySplit_single (h w (by simp)).1 (h w (by simp)).2
    | cons w2 l2 =>
      show pySplit (w ++ ' ' :: joinSp (w2 :: l2)) = _
      rw [pySplit_append_ws (by decide) w.length w _ le_rfl]
      rw [pySplit_single (h w (by simp)).1 (h w (by simp)).2]
      rw [ih (fun x hx => h x (by simp at hx ⊢; tauto))]
      rfl

theorem filter_append_all {P : Str → Bool} :
    ∀ {L X Y : List Str}, L.filter P ++ X = L ++ Y →
    (∀ x ∈ X, P x = true) → L.filter P = L ∧ X = Y := by
  intro L
  induction L with
  | nil =>
    intro X Y h hX
    exact ⟨rfl, by simpa using h⟩
  | cons a L' ih =>
    intro X Y h hX
    by_cases ha : P a = true
    · rw [List.filter_cons, if_pos ha, List.cons_append, List.cons_append] at h
      injection h with _ h2
      obtain ⟨ih1, ih2⟩ := ih h2 hX
      rw [List.filter_cons, if_pos ha, ih1]
      exact ⟨rfl, ih2⟩
    · rw [List.filter_cons, if_neg ha] at h
      cases hfl : L'.filter P with
      | nil =>
        rw [hfl, List.nil_append] at h
        rw [List.cons_append] at h
        have : a ∈ X := by
          rw [h]
          simp
        exact absurd (hX a this) ha
      | cons b F' =>
        rw [hfl, List.cons_append, List.cons_append] at h
        injection h with h1 _
        have hb : b ∈ L'.filter P := by
          rw [hfl]
          simp
        have := List.of_mem_filter hb
        rw [h1] at this
        exact absurd this ha

theorem filter_append_eq_self {P : Str → Bool} {L X : List Str}
    (h : L.filter P ++ X = L) (hX : ∀ x ∈ X, P x = true) : X = [] := by
  have h2 : L.filter P ++ X = L ++ [] := by
    rw [List.append_nil]
    exact h
  exact (filter_append_all h2 hX).2

theorem startsWithL_decomp : ∀ {pat s : Str}, startsWithL pat s = true →
    ∃ rest, s = pat ++ rest := by
  intro pat
  induction pat with
  | nil => exact fun h => ⟨_, rfl⟩
  | cons p ps ih =>
    intro s h
    cases s with
    | nil => simp [startsWithL] at h
    | cons c cs =>
      simp only [startsWithL, Bool.and_eq_true, decide_eq_true_eq] at h
      obtain ⟨rest, hrest⟩ := ih h.2
      exact ⟨rest, by rw [hrest, h.1]; rfl⟩

theorem pyFind_decomp : ∀ {s : Str} {pat : Str} {i : Nat}, pyFind pat s = some i →
    ∃ pre rest, s = pre ++ pat ++ rest ∧ pre.length = i := by
  intro s
  induction s with
  | nil =>
    intro pat i h
    cases pat with
    | nil =>
      simp only [pyFind, startsWithL, if_pos] at h
      injection h with h1
      exact ⟨[], [], rfl, h1⟩
    | cons p ps => simp [pyFind, startsWithL] at h
  | cons c cs ih =>
    intro pat i h
    rw [pyFind] at h
    by_cases hs : startsWithL pat (c :: cs) = true
    · rw [if_pos hs] at h
      injection h with h1
      obtain ⟨rest, hrest⟩ := startsWithL_decomp hs
      exact ⟨[], rest, by rw [hrest]; rfl, h1⟩
    · rw [if_neg hs] at h
      cases hf : pyFind pat cs with
      | none => rw [hf] at h; simp at h
      | some j =>
        rw [hf] at h
        have h1 : j + 1 = i := by simpa using h
        obtain ⟨pre', rest, hsplit, hlen⟩ := ih hf
        refine ⟨c :: pre', rest, by rw [hsplit]; simp, ?_⟩
        simp [hlen, h1]

theorem findIndicator_eq : ∀ {L : List Str} {clean ind : Str} {idx : Nat},
    findIndicator L clean = some (ind, idx) →
    ind ∈ L ∧ pyFind ind clean = some idx := by
  intro L
  induction L with
  | nil => intro clean ind idx h; simp [findIndicator] at h
  | cons ind0 rest ih =>
    intro clean ind idx h
    rw [findIndicator] at h
    cases hf : pyFind ind0 clean with
    | some i =>
      rw [hf] at h
      injection h with h1
      injection h1 with h2 h3
      subst h2
      exact ⟨by simp, h3 ▸ hf⟩
    | none =>
      rw [hf] at h
      obtain ⟨hmem, hfind⟩ := ih h
      exact ⟨by simp [hmem], hfind⟩

theorem dedupKeep_sub {v : Str} {l : List Str} (h : v ∈ dedupKeep l) : v ∈ l := by
  have haux : ∀ (l' : List Str) (acc : List Str),
      v ∈ l'.foldl (fun acc v => if v ≠ [] ∧ v ∉ acc then acc ++ [v] else acc) acc →
      v ∈ acc ∨ v ∈ l' := by
    intro l'
    induction l' with
    | nil => exact fun acc h => Or.inl h
    | cons a l2 ih =>
      intro acc h
      rcases ih _ h with h2 | h2
      · change v ∈ (if a ≠ [] ∧ a ∉ acc then acc ++ [a] else acc) at h2
        by_cases hc : a ≠ [] ∧ a ∉ acc
        · rw [if_pos hc] at h2
          rcases List.mem_append.mp h2 with h3 | h3
          · exact Or.inl h3
          · simp at h3
            exact Or.inr (by simp [h3])
        · rw [if_neg hc] at h2
          exact Or.inl h2
      · exact Or.inr (by simp [h2])
  rcases haux l [] h with h2 | h2
  · simp at h2
  · exact h2

/-! ### Character census for the sequel guard

`sigChar` holds on the characters that every variation-building stage
preserves verbatim: not whitespace, not a colon, and none of the letters of
the removable articles `the`/`a`/`an`/`of`/`and`.  Every sequel indicator
contains such a character, so the base name (the slice before the indicator)
always carries strictly fewer of them than the cleaned title. -/

def sigChar (c : Char) : Bool :=
  !isWs c && !(c == ':') && !(c == 'a') && !(c == 'd') && !(c == 'e') &&
    !(c == 'f') && !(c == 'h') && !(c == 'n') && !(c == 'o') && !(c == 't')

theorem sigChar_ws {c : Char} (h : isWs c = true) : sigChar c = false := by
  simp [sigChar, h]

theorem countP_allFalse {p : Char → Bool} {l : Str} (h : ∀ c ∈ l, p c = false) :
    l.countP p = 0 := by
  rw [List.countP_eq_zero]
  intro a ha
  simp [h a ha]

theorem countP_stripWs {p : Char → Bool} (hws : ∀ c, isWs c = true → p c = false)
    (x : Str) : (stripWs x).countP p = x.countP p := by
  obtain ⟨a, b, hs, ha, hb⟩ := stripWs_split x
  conv_rhs => rw [hs]
  rw [List.countP_append, List.countP_append]
  rw [countP_allFalse (fun c hc => hws c (ha c hc)),
    countP_allFalse (fun c hc => hws c (hb c hc))]
  omega

theorem countP_collapseWs {p : Char → Bool} (hws : ∀ c, isWs c = true → p c = false) :
    ∀ (k : Nat) (s : Str), s.length ≤ k → (collapseWs s).countP p = s.countP p := by
  intro k
  induction k with
  | zero =>
    intro s hl
    have hs : s = [] := List.length_eq_zero.mp (Nat.le_zero.mp hl)
    subst hs
    rfl
  | succ n ih =>
    intro s hl
    cases s with
    | nil => rfl
    | cons c cs =>
      simp only [List.length_cons] at hl
      by_cases hc : isWs c = true
      · rw [collapseWs_cons_ws hc, List.countP_cons, List.countP_cons]
        rw [ih _ (le_trans (dropWhileLengthLe _ _) (by omega))]
        have h1 : cs.countP p =
            (cs.takeWhile isWs).countP p + (cs.dropWhile isWs).countP p := by
          conv_lhs => rw [← List.takeWhile_append_dropWhile isWs cs]
          rw [List.countP_append]
        rw [h1, countP_allFalse (fun d hd => hws d (List.mem_takeWhile_imp hd))]
        simp [hws ' ' (by decide), hws c hc]
      · have hc' : isWs c = false := by
          cases h2 : isWs c
          · rfl
          · exact absurd h2 hc
        rw [collapseWs_cons_nonws hc', List.countP_cons, List.countP_cons,
          ih cs (by omega)]

theorem countP_dropWordRun {p : Char → Bool} {w : Str} (hw : ∀ c ∈ w, p c = false) :
    ∀ (k : Nat) (s : Str), s.length ≤ k →
    (dropWordRun w s).countP p = s.countP p := by
  intro k
  induction k with
  | zero =>
    intro s hl
    have hs : s = [] := List.length_eq_zero.mp (Nat.le_zero.mp hl)
    subst hs
    rfl
  | succ n ih =>
    intro s hl
    cases s with
    | nil => rfl
    | cons c cs =>
      simp only [List.length_cons] at hl
      by_cases hc : isWordChar c = true
      · have hdec : (c :: cs : Str).countP p =
            (c :: cs.takeWhile isWordChar).countP p +
              (cs.dropWhile isWordChar).countP p := by
          conv_lhs => rw [show (c :: cs : Str) =
            (c :: cs.takeWhile isWordChar) ++ cs.dropWhile isWordChar by
              rw [List.cons_append, List.takeWhile_append_dropWhile]]
          rw [List.countP_append]
        rw [dropWordRun_cons_word hc, List.countP_append, hdec,
          ih _ (le_trans (dropWhileLengthLe _ _) (by omega))]
        by_cases hrw : c :: cs.takeWhile isWordChar = w
        · rw [if_pos hrw, countP_allFalse (fun d hd => hw d (hrw ▸ hd))]
          rfl
        · rw [if_neg hrw]
      · have hc' : isWordChar c = false := by
          cases h2 : isWordChar c
          · rfl
          · exact absurd h2 hc
        rw [dropWordRun_cons_nonword hc', List.countP_cons, List.countP_cons,
          ih cs (by omega)]

theorem countP_pyReplaceAux {p : Char → Bool} {pat rep : Str}
    (hpat : ∀ c ∈ pat, p c = false) (hrep : ∀ c ∈ rep, p c = false) :
    ∀ (fuel : Nat) (s : Str), (pyReplaceAux pat rep fuel s).countP p = s.countP p := by
  intro fuel
  induction fuel with
  | zero => intro s; cases s <;> rfl
  | succ n ih =>
    intro s
    cases s with
    | nil => rfl
    | cons c cs =>
      rw [pyReplaceAux]
      by_cases hc : startsWithL pat (c :: cs) = true ∧ pat ≠ []
      · rw [if_pos hc]
        obtain ⟨rest, hrest⟩ := startsWithL_decomp hc.1
        rw [List.countP_append, countP_allFalse hrep, ih, hrest, List.drop_left,
          List.countP_append, countP_allFalse hpat]
      · rw [if_neg hc, List.countP_cons, List.countP_cons, ih]

theorem countP_sequelName (clean : Str) :
    (sequelNameOf clean).countP sigChar = clean.countP sigChar := by
  unfold sequelNameOf pyReplace
  rw [countP_stripWs (fun c h => sigChar_ws h)]
  rw [countP_pyReplaceAux (by decide) (by decide)]
  rw [countP_pyReplaceAux (by decide) (by decide)]

theorem countP_articleStrip (clean : Str) :
    (articleStrip clean).countP sigChar = clean.countP sigChar := by
  unfold articleStrip
  rw [countP_stripWs (fun c h => sigChar_ws h)]
  rw [countP_collapseWs (fun c h => sigChar_ws h) _ _ le_rfl]
  rw [countP_dropWordRun (by decide) _ _ le_rfl]
  rw [countP_dropWordRun (by decide) _ _ le_rfl]
  rw [countP_dropWordRun (by decide) _ _ le_rfl]
  rw [countP_dropWordRun (by decide) _ _ le_rfl]
  rw [countP_dropWordRun (by decide) _ _ le_rfl]

theorem sequelIndicators_census :
    ∀ ind ∈ sequelIndicators, 1 ≤ ind.countP sigChar := by decide

theorem c2_base_census {clean pre ind rest : Str} (hclean : clean = pre ++ ind ++ rest)
    (hind : ind ∈ sequelIndicators) :
    (stripWs pre).countP sigChar < clean.countP sigChar := by
  rw [hclean, List.countP_append, List.countP_append]
  rw [countP_stripWs (fun c h => sigChar_ws h) pre]
  have h1 := sequelIndicators_census ind hind
  have h2 : List.countP (fun c => sigChar c) pre = List.countP sigChar pre := rfl
  omega

/-! ### The key-word variation never reproduces the bare base name

`' '.join(key_words)` always retains a word drawn from the indicator region
of the title (every indicator contributes a word of length `> 3` outside the
stop list), while the base name is built solely from the text before the
indicator; splitting both sides back into words yields a contradiction. -/

theorem keyP_of_long {w : Str} (h : 5 ≤ w.length) :
    (decide (3 < w.length) && decide (w ∉ keyStop)) = true := by
  simp only [Bool.and_eq_true, decide_eq_true_eq]
  refine ⟨by omega, ?_⟩
  intro hmem
  have h4 : ∀ k ∈ keyStop, k.length = 4 := by decide
  have h5 := h4 w hmem
  omega

theorem pySplit_stem_head {stem : Str} (rest : Str) (hne : stem ≠ [])
    (hnw : ∀ c ∈ stem, isWs c = false) :
    ∃ ext tail2, pySplit (stem ++ rest) = (stem ++ ext) :: tail2 := by
  cases stem with
  | nil => exact absurd rfl hne
  | cons c s' =>
    rw [List.cons_append, pySplit_cons_nonws (hnw c (by simp))]
    rw [takeWhile_all_append (fun x hx => by simp [hnw x (by simp [hx])])]
    exact ⟨_, _, rfl⟩

theorem pySplit_snoc_nonws {ch : Char} (hch : isWs ch = false) :
    ∀ (k : Nat) (pre : Str), pre.length ≤ k →
    (∃ pre2 d, pre = pre2 ++ [d] ∧ isWs d = false) →
    ∃ M u, pySplit pre = M ++ [u] ∧ pySplit (pre ++ [ch]) = M ++ [u ++ [ch]] := by
  intro k
  induction k with
  | zero =>
    intro pre hl hsnoc
    have hnil : pre = [] := List.length_eq_zero.mp (Nat.le_zero.mp hl)
    obtain ⟨pre2, d, hpre, -⟩ := hsnoc
    rw [hnil] at hpre
    exact absurd hpre.symm (by simp)
  | succ n ih =>
    intro pre hl hsnoc
    obtain ⟨pre2, d, rfl, hd⟩ := hsnoc
    cases pre2 with
    | nil =>
      refine ⟨[], [d], ?_, ?_⟩
      · rw [List.nil_append, pySplit_cons_nonws hd]
        rfl
      · rw [List.nil_append, List.cons_append, pySplit_cons_nonws hd]
        rw [List.nil_append, List.takeWhile_cons, if_pos (by simp [hch]),
          List.dropWhile_cons, if_pos (by simp [hch])]
        rfl
    | cons c pre2' =>
      rw [List.cons_append] at hl ⊢
      simp only [List.length_cons] at hl
      by_cases hc : isWs c = true
      · rw [pySplit_cons_ws hc, List.cons_append, pySplit_cons_ws hc]
        exact ih (pre2' ++ [d]) (by simp at hl ⊢; omega) ⟨pre2', d, rfl, hd⟩
      · have hc' : isWs c = false := by
          cases h2 : isWs c
          · rfl
          · exact absurd h2 hc
        rw [pySplit_cons_nonws hc', List.cons_append, pySplit_cons_nonws hc']
        by_cases hC : ((pre2' ++ [d]).takeWhile (fun x => !isWs x)).length =
            (pre2' ++ [d]).length
        · have hdp : (pre2' ++ [d]).dropWhile (fun x => !isWs x) = [] := by
            have hlen := congrArg List.length (List.takeWhile_append_dropWhile
              (fun x => !isWs x) (pre2' ++ [d]))
            rw [List.length_append] at hlen
            have hz : ((pre2' ++ [d]).dropWhile (fun x => !isWs x)).length = 0 := by
              omega
            exact List.length_eq_zero.mp hz
          have htk : (pre2' ++ [d]).takeWhile (fun x => !isWs x) = pre2' ++ [d] := by
            have hsplit := List.takeWhile_append_dropWhile
              (fun x => !isWs x) (pre2' ++ [d])
            rw [hdp, List.append_nil] at hsplit
            exact hsplit
          have hall : ∀ x ∈ pre2' ++ [d], (fun x => !isWs x) x = true := by
            intro x hx
            rw [← htk] at hx
            have h3 := List.mem_takeWhile_imp hx
            exact h3
          rw [takeWhile_all_append hall, dropWhile_all_append hall]
          rw [List.takeWhile_cons, if_pos (by simp [hch]),
            List.dropWhile_cons, if_pos (by simp [hch])]
          rw [htk, hdp]
          refine ⟨[], c :: (pre2' ++ [d]), ?_, ?_⟩
          · rfl
          · simp [show pySplit ([] : Str) = [] from rfl]
        · have hdn : (pre2' ++ [d]).dropWhile (fun x => !isWs x) ≠ [] := by
            intro hnil
            apply hC
            have hsplit := List.takeWhile_append_dropWhile
              (fun x => !isWs x) (pre2' ++ [d])
            rw [hnil, List.append_nil] at hsplit
            rw [hsplit]
          have htkeq : List.takeWhile (fun x => !isWs x) ((pre2' ++ [d]) ++ [ch]) =
              List.takeWhile (fun x => !isWs x) (pre2' ++ [d]) := by
            rw [List.takeWhile_append, if_neg hC]
          have hdpeq : List.dropWhile (fun x => !isWs x) ((pre2' ++ [d]) ++ [ch]) =
              List.dropWhile (fun x => !isWs x) (pre2' ++ [d]) ++ [ch] := by
            rw [List.dropWhile_append, if_neg (by simpa using hdn)]
          rw [htkeq, hdpeq]
          have hsuffix : ∃ l3, (pre2' ++ [d]).dropWhile (fun x => !isWs x) =
              l3 ++ [d] := by
            obtain ⟨t, ht⟩ := List.dropWhile_suffix (l := pre2' ++ [d])
              (fun x => !isWs x)
            rcases List.eq_nil_or_concat ((pre2' ++ [d]).dropWhile (fun x => !isWs x))
              with hnil | ⟨l3, a, hconc⟩
            · exact absurd hnil hdn
            · rw [List.concat_eq_append] at hconc
              rw [hconc, ← List.append_assoc] at ht
              have hlast := congrArg List.getLast? ht
              rw [List.getLast?_concat, List.getLast?_concat] at hlast
              injection hlast with hlast2
              exact ⟨l3, by rw [hconc, hlast2]⟩
          obtain ⟨l3, hl3⟩ := hsuffix
          have hlen3 : ((pre2' ++ [d]).dropWhile (fun x => !isWs x)).length ≤ n := by
            have h6 := dropWhileLengthLe (fun x => !isWs x) (pre2' ++ [d])
            simp only [List.length_append, List.length_cons] at h6 hl ⊢
            omega
          obtain ⟨M', u', h1, h2⟩ := ih _ hlen3 ⟨l3, d, hl3, hd⟩
          refine ⟨(c :: (pre2' ++ [d]).takeWhile (fun x => !isWs x)) :: M', u', ?_, ?_⟩
          · rw [h1]
            rfl
          · rw [h2]
            rfl

theorem c2_kw_eq {clean pre : Str} (heq : joinSp (keyWordsOf clean) = stripWs pre) :
    keyWordsOf clean = pySplit pre := by
  have hshape : ∀ w ∈ keyWordsOf clean, w ≠ [] ∧ ∀ c ∈ w, isWs c = false := by
    intro w hw
    have hw2 : w ∈ pySplit clean := List.mem_of_mem_filter hw
    exact pySplit_mem_shape clean.length clean le_rfl w hw2
  have h1 := congrArg pySplit heq
  rw [pySplit_join _ hshape, pySplit_stripWs] at h1
  exact h1

theorem c2_kw_space_case {pre indTail rest : Str} (anchor : Str)
    (hanchor : anchor ∈ pySplit (indTail ++ rest))
    (hP : (decide (3 < anchor.length) && decide (anchor ∉ keyStop)) = true) :
    joinSp (keyWordsOf (pre ++ (' ' :: indTail) ++ rest)) ≠ stripWs pre := by
  intro heq
  have hkweq := c2_kw_eq heq
  have hcl : pre ++ (' ' :: indTail) ++ rest = pre ++ ' ' :: (indTail ++ rest) := by
    simp
  rw [hcl] at hkweq
  rw [show keyWordsOf (pre ++ ' ' :: (indTail ++ rest)) =
    (pySplit (pre ++ ' ' :: (indTail ++ rest))).filter
      (fun w => decide (3 < w.length) && decide (w ∉ keyStop)) from rfl] at hkweq
  rw [pySplit_append_ws (by decide) pre.length _ _ le_rfl, List.filter_append] at hkweq
  have hX := filter_append_eq_self hkweq (by
    intro x hx
    have h9 := List.of_mem_filter hx
    exact h9)
  have hmem : anchor ∈ ([] : List Str) := by
    rw [← hX]
    exact List.mem_filter.mpr ⟨hanchor, hP⟩
  simp at hmem

theorem c2_kw_colon_case {pre wpart rest : Str} (hw5 : 5 ≤ wpart.length)
    (hwne : wpart ≠ []) (hwnw : ∀ c ∈ wpart, isWs c = false) :
    joinSp (keyWordsOf (pre ++ (':' :: ' ' :: wpart) ++ rest)) ≠ stripWs pre := by
  intro heq
  have hkweq := c2_kw_eq heq
  have hcl : pre ++ (':' :: ' ' :: wpart) ++ rest =
      (pre ++ [':']) ++ ' ' :: (wpart ++ rest) := by
    simp
  rw [hcl] at hkweq
  rw [show keyWordsOf ((pre ++ [':']) ++ ' ' :: (wpart ++ rest)) =
    (pySplit ((pre ++ [':']) ++ ' ' :: (wpart ++ rest))).filter
      (fun w => decide (3 < w.length) && decide (w ∉ keyStop)) from rfl] at hkweq
  rw [pySplit_append_ws (by decide) (pre ++ [':']).length _ _ le_rfl,
    List.filter_append] at hkweq
  obtain ⟨ext, tl, hhead⟩ := pySplit_stem_head rest hwne hwnw
  have hanch : (wpart ++ ext) ∈ (pySplit (wpart ++ rest)).filter
      (fun w => decide (3 < w.length) && decide (w ∉ keyStop)) := by
    rw [List.mem_filter]
    refine ⟨by rw [hhead]; simp, keyP_of_long ?_⟩
    rw [List.length_append]
    omega
  rcases List.eq_nil_or_concat pre with rfl | ⟨pre2, d, hconc⟩
  · rw [show pySplit (([] : Str) ++ [':']) = [[':']] from rfl] at hkweq
    rw [show List.filter (fun w => decide (3 < w.length) && decide (w ∉ keyStop))
      [[':']] = [] from by decide] at hkweq
    rw [List.nil_append] at hkweq
    rw [show pySplit ([] : Str) = [] from rfl] at hkweq
    rw [hkweq] at hanch
    simp at hanch
  · rw [List.concat_eq_append] at hconc
    subst hconc
    by_cases hd : isWs d = true
    · have h1 : (pre2 ++ [d]) ++ [':'] = pre2 ++ d :: [':'] := by simp
      rw [h1, pySplit_append_ws hd pre2.length _ _ le_rfl] at hkweq
      rw [show pySplit ([':'] : Str) = [[':']] from rfl] at hkweq
      rw [List.filter_append] at hkweq
      rw [show List.filter (fun w => decide (3 < w.length) && decide (w ∉ keyStop))
        [[':']] = [] from by decide] at hkweq
      rw [List.append_nil] at hkweq
      have h2 : pySplit (pre2 ++ [d]) = pySplit pre2 :=
        pySplit_allws_right (by intro c hc; simp at hc; rw [hc]; exact hd)
      rw [h2] at hkweq
      have hX := filter_append_eq_self hkweq (by
        intro x hx
        have h9 := List.of_mem_filter hx
        exact h9)
      rw [hX] at hanch
      simp at hanch
    · have hd' : isWs d = false := by
        cases h2 : isWs d
        · rfl
        · exact absurd h2 hd
      obtain ⟨M, u, hM1, hM2⟩ := pySplit_snoc_nonws
        (show isWs ':' = false from by decide)
        (pre2 ++ [d]).length (pre2 ++ [d]) le_rfl ⟨pre2, d, rfl, hd'⟩
      rw [hM2, hM1, List.filter_append] at hkweq
      by_cases hPu : (decide (3 < (u ++ [':']).length) &&
          decide ((u ++ [':']) ∉ keyStop)) = true
      · rw [show List.filter (fun w => decide (3 < w.length) && decide (w ∉ keyStop))
          [u ++ [':']] = [u ++ [':']] from by
            rw [List.filter_cons, if_pos hPu]; rfl] at hkweq
        rw [List.append_assoc] at hkweq
        obtain ⟨-, hX⟩ := filter_append_all hkweq (by
          intro x hx
          rcases List.mem_append.mp hx with hx1 | hx2
          · simp at hx1
            rw [hx1]
            exact hPu
          · have h9 := List.of_mem_filter hx2
            exact h9)
        have h10 : (u ++ [':']) :: List.filter
            (fun w => decide (3 < w.length) && decide (w ∉ keyStop))
            (pySplit (wpart ++ rest)) = [u] := hX
        injection h10 with h11 h12
        have hlen2 := congrArg List.length h11
        rw [List.length_append] at hlen2
        simp at hlen2
      · rw [show List.filter (fun w => decide (3 < w.length) && decide (w ∉ keyStop))
          [u ++ [':']] = [] from by
            rw [List.filter_cons, if_neg hPu]; rfl] at hkweq
        rw [List.append_nil] at hkweq
        obtain ⟨-, hX⟩ := filter_append_all hkweq (by
          intro x hx
          have h9 := List.of_mem_filter hx
          exact h9)
        rw [hX] at hanch
        have hu : wpart ++ ext = u := by simpa using hanch
        apply hPu
        rw [← hu]
        apply keyP_of_long
        rw [List.length_append, List.length_append]
        omega

theorem c2_kw_space_stem {pre stem rest : Str} (hne : stem ≠ [])
    (hnw : ∀ c ∈ stem, isWs c = false) (h5 : 5 ≤ stem.length) :
    joinSp (keyWordsOf (pre ++ (' ' :: stem) ++ rest)) ≠ stripWs pre := by
  obtain ⟨ext, tl, hhead⟩ := pySplit_stem_head rest hne hnw
  apply c2_kw_space_case (stem ++ ext)
  · rw [hhead]
    simp
  · apply keyP_of_long
    rw [List.length_append]
    omega

theorem c2_keywords_ne_base {pre ind rest : Str} (hind : ind ∈ sequelIndicators) :
    joinSp (keyWordsOf (pre ++ ind ++ rest)) ≠ stripWs pre := by
  simp only [sequelIndicators, List.mem_cons, List.not_mem_nil, or_false] at hind
  rcases hind with rfl | rfl | rfl | rfl | rfl | rfl | rfl | rfl | rfl | rfl | rfl | rfl | rfl | rfl
  · rw [show strL " shippuden" = ' ' :: strL "shippuden" from rfl]
    exact c2_kw_space_stem (by decide) (by decide) (by decide)
  · rw [show strL " shippūden" = ' ' :: strL "shippūden" from rfl]
    exact c2_kw_space_stem (by decide) (by decide) (by decide)
  · rw [show strL " shippūden" = ' ' :: strL "shippūden" from rfl]
    exact c2_kw_space_stem (by decide) (by decide) (by decide)
  · rw [show strL " boruto" = ' ' :: strL "boruto" from rfl]
    exact c2_kw_space_stem (by decide) (by decide) (by decide)
  · rw [show strL ": boruto" = ':' :: ' ' :: strL "boruto" from rfl]
    exact c2_kw_colon_case (by decide) (by decide) (by decide)
  · rw [show strL " next generations" = ' ' :: strL "next generations" from rfl]
    apply c2_kw_space_case (strL "next")
    · rw [show strL "next generations" ++ rest =
        strL "next" ++ ' ' :: (strL "generations" ++ rest) from rfl]
      rw [pySplit_append_ws (by decide) (strL "next").length _ _ le_rfl]
      rw [show pySplit (strL "next") = [strL "next"] from rfl]
      simp
    · decide
  · rw [show strL " the next generation" = ' ' :: strL "the next generation" from rfl]
    apply c2_kw_space_case (strL "next")
    · rw [show strL "the next generation" ++ rest =
        strL "the" ++ ' ' :: (strL "next generation" ++ rest) from rfl]
      rw [pySplit_append_ws (by decide) (strL "the").length _ _ le_rfl]
      rw [show strL "next generation" ++ rest =
        strL "next" ++ ' ' :: (strL "generation" ++ rest) from rfl]
      rw [pySplit_append_ws (by decide) (strL "next").length _ _ le_rfl]
      rw [show pySplit (strL "next") = [strL "next"] from rfl]
      simp
    · decide
  · rw [show strL ": brotherhood" = ':' :: ' ' :: strL "brotherhood" from rfl]
    exact c2_kw_colon_case (by decide) (by decide) (by decide)
  · rw [show strL " brotherhood" = ' ' :: strL "brotherhood" from rfl]
    exact c2_kw_space_stem (by decide) (by decide) (by decide)
  · rw [show strL " season 2" = ' ' :: strL "season 2" from rfl]
    apply c2_kw_space_case (strL "season")
    · rw [show strL "season 2" ++ rest =
        strL "season" ++ ' ' :: (strL "2" ++ rest) from rfl]
      rw [pySplit_append_ws (by decide) (strL "season").length _ _ le_rfl]
      rw [show pySplit (strL "season") = [strL "season"] from rfl]
      simp
    · decide
  · rw [show strL " 2nd season" = ' ' :: strL "2nd season" from rfl]
    obtain ⟨ext, tl, hhead⟩ := pySplit_stem_head rest
      (show strL "season" ≠ [] from by decide)
      (show ∀ c ∈ strL "season", isWs c = false from by decide)
    apply c2_kw_space_case (strL "season" ++ ext)
    · rw [show strL "2nd season" ++ rest =
        strL "2nd" ++ ' ' :: (strL "season" ++ rest) from rfl]
      rw [pySplit_append_ws (by decide) (strL "2nd").length _ _ le_rfl, hhead]
      simp
    · apply keyP_of_long
      rw [List.length_append]
      have h6 : (strL "season").length = 6 := rfl
      omega
  · rw [show strL " second season" = ' ' :: strL "second season" from rfl]
    apply c2_kw_space_case (strL "second")
    · rw [show strL "second season" ++ rest =
        strL "second" ++ ' ' :: (strL "season" ++ rest) from rfl]
      rw [pySplit_append_ws (by decide) (strL "second").length _ _ le_rfl]
      rw [show pySplit (strL "second") = [strL "second"] from rfl]
      simp
    · decide
  · rw [show strL " part 2" = ' ' :: strL "part 2" from rfl]
    apply c2_kw_space_case (strL "part")
    · rw [show strL "part 2" ++ rest =
        strL "part" ++ ' ' :: (strL "2" ++ rest) from rfl]
      rw [pySplit_append_ws (by decide) (strL "part").length _ _ le_rfl]
      rw [show pySplit (strL "part") = [strL "part"] from rfl]
      simp
    · decide
  · rw [show strL " part ii" = ' ' :: strL "part ii" from rfl]
    apply c2_kw_space_case (strL "part")
    · rw [show strL "part ii" ++ rest =
        strL "part" ++ ' ' :: (strL "ii" ++ rest) from rfl]
      rw [pySplit_append_ws (by decide) (strL "part").length _ _ le_rfl]
      rw [show pySplit (strL "part") = [strL "part"] from rfl]
      simp
    · decide


theorem mem_ite_append {v a : Str} {l : List Str} {c : Prop} [Decidable c]
    (h : v ∈ if c then l ++ [a] else l) : v ∈ l ∨ v = a := by
  split at h
  · rcases List.mem_append.mp h with h2 | h2
    · exact Or.inl h2
    · simp at h2
      exact Or.inr h2
  · exact Or.inl h

theorem mem_seq_front {v clean : Str} {u : List Str} {c : Prop} [Decidable c]
    (h : v ∈ if c then clean :: (if clean ∈ u then u.erase clean else u) else u) :
    v = clean ∨ v ∈ u := by
  split at h
  · rcases List.mem_cons.mp h with h2 | h2
    · exact Or.inl h2
    · split at h2
      · exact Or.inr (List.mem_of_mem_erase h2)
      · exact Or.inr h2
  · exact Or.inr h

theorem mem_vars1 {v clean sn : Str} {c : Prop} [Decidable c]
    (h : v ∈ if c then [clean, sn] else [clean]) : v = clean ∨ v = sn := by
  split at h <;> simp at h <;> tauto

/-- Membership in `generate_variations` for a sequel title: the sequel branch
skips the colon and word-count variations, so every produced variation is the
clean title, the sequel name, the article-stripped form, or the key words. -/
theorem generateVariations_mem_sequel {t v : Str} {pr : Str × Nat}
    (hf : findIndicator sequelIndicators (cleanOf t) = some pr)
    (hv : v ∈ generateVariations t) :
    v = cleanOf t ∨ v = sequelNameOf (cleanOf t) ∨ v = articleStrip (cleanOf t) ∨
      v = joinSp (keyWordsOf (cleanOf t)) := by
  simp only [generateVariations, hf, Option.isSome_some, if_true, true_and] at hv
  rcases mem_seq_front hv with h1 | h1
  · exact Or.inl h1
  have h2 := dedupKeep_sub h1
  rcases mem_ite_append h2 with h3 | h3
  · rcases mem_ite_append h3 with h4 | h4
    · rcases mem_vars1 h4 with h5 | h5
      · exact Or.inl h5
      · exact Or.inr (Or.inl h5)
    · exact Or.inr (Or.inr (Or.inl h4))
  · exact Or.inr (Or.inr (Or.inr h3))

/-! ## Claim theorems -/

/-- **C6** — Added/skipped disjointness: in any single run, a trakt id can be
appended to the add candidates only when it is absent from the snapshot and
recorded as skipped only when it is present, so no id is in both lists. -/
theorem c6_added_skipped_disjoint (mode : Mode) (sa : Bool) (sm : List (Str × Str))
    (bn bt : List (Str × EpInfo)) (seasons : List SeasonData) (existing : List Nat)
    (sim : Str → Str → ℚ) (eps : List ScrapedEp) :
    List.Disjoint
      (addIdsOf (classifyRun mode sa sm bn bt seasons existing sim eps))
      (skipIdsOf (classifyRun mode sa sm bn bt seasons existing sim eps)) := by
  intro a ha hs
  obtain ⟨n, hn⟩ := mem_addIdsOf ha
  obtain ⟨i, hi⟩ := mem_skipIdsOf hs
  simp only [classifyRun] at hn hi
  obtain ⟨ep1, hm1, hf1⟩ := List.mem_filterMap.mp hn
  obtain ⟨ep2, hm2, hf2⟩ := List.mem_filterMap.mp hi
  exact processEp_added_not_mem hf1 (processEp_skipped_mem hf2)

/-- Witness for C6 at a concrete hybrid run. -/
theorem c6_added_skipped_disjoint_witness :
    List.Disjoint
      (addIdsOf (classifyRun Mode.hybrid false [] [(strL "1", ⟨none, none, 5⟩)] [] [] []
        (fun _ _ => 0) [⟨strL "1", strL "E"⟩]))
      (skipIdsOf (classifyRun Mode.hybrid false [] [(strL "1", ⟨none, none, 5⟩)] [] [] []
        (fun _ _ => 0) [⟨strL "1", strL "E"⟩])) :=
  c6_added_skipped_disjoint Mode.hybrid false [] [(strL "1", ⟨none, none, 5⟩)] [] [] []
    (fun _ _ => 0) [⟨strL "1", strL "E"⟩]

/-- **C7 amended** — in `title` and `hybrid` mode every desired episode
receives exactly one record (matched episodes as added or skipped, unmatched
ones as failed — the title cascade always ends in a record); `number` mode
silently drops unmatched episodes (see the counterexample). -/
theorem c7_title_hybrid_always_recorded (mode : Mode) (sa : Bool) (sm : List (Str × Str))
    (bn bt : List (Str × EpInfo)) (seasons : List SeasonData) (existing : List Nat)
    (sim : Str → Str → ℚ) (h : mode = Mode.title ∨ mode = Mode.hybrid) :
    (∀ ep, ∃ o, processEp mode sa sm bn bt seasons existing sim ep = some o) ∧
    (∀ eps, (classifyRun mode sa sm bn bt seasons existing sim eps).length = eps.length) := by
  have htot : ∀ ep, ∃ o, processEp mode sa sm bn bt seasons existing sim ep = some o := by
    intro ep
    simp only [processEp]
    cases hnb : numberBranch mode bn existing (if sa then handleSpecial ep else ep) with
    | some o => exact ⟨o, by simp only [hnb]⟩
    | none =>
      exact ⟨titleBranch sa sm bt seasons existing sim (if sa then handleSpecial ep else ep),
        by simp only [hnb, if_pos h]⟩
  refine ⟨htot, ?_⟩
  intro eps
  induction eps with
  | nil => rfl
  | cons e rest ih =>
    obtain ⟨o, ho⟩ := htot e
    simp only [classifyRun, List.filterMap_cons, ho, List.length_cons] at *
    omega

/-- Witness for C7 amended: a concrete title-mode run where the unmatched
episode is recorded as failed. -/
theorem c7_title_hybrid_always_recorded_witness :
    (∀ ep, ∃ o, processEp Mode.title false [] [] [] [] [] (fun _ _ => 0) ep = some o) ∧
    (∀ eps, (classifyRun Mode.title false [] [] [] [] [] (fun _ _ => 0) eps).length =
      eps.length) :=
  c7_title_hybrid_always_recorded Mode.title false [] [] [] [] [] (fun _ _ => 0) (Or.inl rfl)

/-- **C10** — Snapshot immutability and its consequence: the classification
of each episode uses the same snapshot that the run started with (the head
episode's outcome does not alter the set used for the tail), so two desired
episodes matching the same absent id both append it and the submitted payload
contains the id twice. -/
theorem c10_snapshot_immutable :
    (∀ (mode : Mode) (sa : Bool) (sm : List (Str × Str)) (bn bt : List (Str × EpInfo))
       (seasons : List SeasonData) (existing : List Nat) (sim : Str → Str → ℚ)
       (e : ScrapedEp) (eps : List ScrapedEp),
      classifyRun mode sa sm bn bt seasons existing sim (e :: eps) =
        (processEp mode sa sm bn bt seasons existing sim e).toList ++
          classifyRun mode sa sm bn bt seasons existing sim eps) ∧
    (∀ (mode : Mode) (sa : Bool) (sm : List (Str × Str)) (bn bt : List (Str × EpInfo))
       (seasons : List SeasonData) (existing : List Nat) (sim : Str → Str → ℚ)
       (e1 e2 : ScrapedEp) (id : Nat) (n1 n2 : Str),
      processEp mode sa sm bn bt seasons existing sim e1 = some (.addedO id n1) →
      processEp mode sa sm bn bt seasons existing sim e2 = some (.addedO id n2) →
      submittedIds (toAddOf (classifyRun mode sa sm bn bt seasons existing sim [e1, e2])) =
        [id, id]) := by
  constructor
  · intro mode sa sm bn bt seasons existing sim e eps
    simp only [classifyRun, List.filterMap_cons]
    cases processEp mode sa sm bn bt seasons existing sim e <;> simp
  · intro mode sa sm bn bt seasons existing sim e1 e2 id n1 n2 h1 h2
    simp [classifyRun, List.filterMap_cons, h1, h2, toAddOf, submittedIds]

/-- Witness for C10: the two parts applied at a concrete run in which two
episodes match the same absent id. -/
theorem c10_snapshot_immutable_witness :
    classifyRun Mode.hybrid false [] [(strL "1", ⟨none, none, 5⟩)] [] [] [] (fun _ _ => 0)
        (⟨strL "1", strL "E"⟩ :: [⟨strL "x1", strL "F"⟩]) =
      (processEp Mode.hybrid false [] [(strL "1", ⟨none, none, 5⟩)] [] [] [] (fun _ _ => 0)
        ⟨strL "1", strL "E"⟩).toList ++
        classifyRun Mode.hybrid false [] [(strL "1", ⟨none, none, 5⟩)] [] [] [] (fun _ _ => 0)
          [⟨strL "x1", strL "F"⟩] ∧
    submittedIds (toAddOf (classifyRun Mode.hybrid false [] [(strL "1", ⟨none, none, 5⟩)]
        [] [] [] (fun _ _ => 0) [⟨strL "1", strL "E"⟩, ⟨strL "x1", strL "F"⟩])) = [5, 5] :=
  ⟨c10_snapshot_immutable.1 Mode.hybrid false [] [(strL "1", ⟨none, none, 5⟩)] [] [] []
      (fun _ _ => 0) ⟨strL "1", strL "E"⟩ [⟨strL "x1", strL "F"⟩],
   c10_snapshot_immutable.2 Mode.hybrid false [] [(strL "1", ⟨none, none, 5⟩)] [] [] []
      (fun _ _ => 0) ⟨strL "1", strL "E"⟩ ⟨strL "x1", strL "F"⟩ 5 (strL "E") (strL "F")
      (by decide) (by decide)⟩

/-- **C1 amended** — for runs without the special-case pattern strategy
(`special_anime` false), reconciliation is idempotent: matching is
snapshot-independent, every candidate id added by the first run is in the
second run's snapshot, so the second run classifies every matched episode as
skipped and its add-set is empty. -/
theorem c1_idempotent_without_special (mode : Mode) (sm : List (Str × Str))
    (bn bt : List (Str × EpInfo)) (seasons : List SeasonData) (existing : List Nat)
    (sim : Str → Str → ℚ) (eps : List ScrapedEp) :
    toAddOf (classifyRun mode false sm bn bt seasons
      (existing ++ addIdsOf (classifyRun mode false sm bn bt seasons existing sim eps))
      sim eps) = [] := by
  set ex2 := existing ++ addIdsOf (classifyRun mode false sm bn bt seasons existing sim eps)
    with hex2
  simp only [classifyRun]
  apply toAddOf_filterMap_nil
  intro ep hmem id n hf
  have hnot : id ∉ ex2 := processEp_added_not_mem hf
  have hmid : matchedId (processEp mode false sm bn bt seasons existing sim ep) = some id := by
    rw [processEp_matchedId_ext mode sm bn bt seasons existing ex2 sim ep]
    rw [hf]
    rfl
  cases ho : processEp mode false sm bn bt seasons existing sim ep with
  | none => rw [ho] at hmid; simp [matchedId] at hmid
  | some o =>
    cases o with
    | addedO id' n' =>
      rw [ho] at hmid
      have hid : id' = id := by simpa [matchedId] using hmid
      subst hid
      have hin : EpOutcome.addedO id' n' ∈
          classifyRun mode false sm bn bt seasons existing sim eps := by
        simp only [classifyRun]
        exact List.mem_filterMap.mpr ⟨ep, hmem, ho⟩
      have hmem2 : id' ∈ addIdsOf (classifyRun mode false sm bn bt seasons existing sim eps) := by
        unfold addIdsOf toAddOf
        exact List.mem_map.mpr ⟨(id', n'), List.mem_filterMap.mpr ⟨_, hin, rfl⟩, rfl⟩
      exact hnot (by rw [hex2]; exact List.mem_append.mpr (Or.inr hmem2))
    | skippedO id' i =>
      rw [ho] at hmid
      have hid : id' = id := by simpa [matchedId] using hmid
      subst hid
      exact hnot (by rw [hex2]; exact List.mem_append.mpr (Or.inl (processEp_skipped_mem ho)))
    | failedO e => rw [ho] at hmid; simp [matchedId] at hmid

/-- **C9** — Marker stripping.  `NxNN` markers are removed, but a `(NN)`
marker is *not*: the first rewrite has already turned every parenthesis into
a space, so `re.sub(r'\(\d+\)\s*', '', ·)` can never match and the digits
survive (`"Naruto (22)"` normalizes to `"naruto 22"`), contradicting the
source's own comment "Remove episode numbers like \"1x22\" or \"(22)\"". -/
theorem c9_paren_marker_not_stripped :
    normalizeTitle (strL "Foo 1x22") = strL "foo" ∧
    normalizeTitle (strL "Naruto (22)") = strL "naruto 22" := by decide

/-- **C8 counterexample** — the normalizer is not idempotent:
`normalize("part the 5") = "part 5"`, whose second pass triggers the
`part\s+(\d+)` rewrite that the stop-word deletion of the first pass
exposed, giving `"5"`. -/
theorem c8_not_idempotent :
    normalizeTitle (strL "part the 5") = strL "part 5" ∧
    normalizeTitle (normalizeTitle (strL "part the 5")) = strL "5" ∧
    normalizeTitle (normalizeTitle (strL "part the 5")) ≠ normalizeTitle (strL "part the 5") := by
  decide

/-- **C7 counterexample** — in `number` mode an unmatched episode is not
recorded anywhere: the `if not matched: failed_episodes.append(...)` block
sits inside the title/hybrid branch, so the run record is empty rather than
containing the episode as failed. -/
theorem c7_number_mode_drops_unmatched :
    processEp Mode.number false [] [] [] [] [] (fun _ _ => 0) ⟨strL "9", strL "X"⟩ = none ∧
    failedOf (classifyRun Mode.number false [] [] [] [] [] (fun _ _ => 0)
      [⟨strL "9", strL "X"⟩]) = [] := by decide

/-- **C1 counterexample** — reconciliation is not idempotent when the
special-case (Code Geass) pattern strategy is active.  Episode `"Stage 3"`
matches season 1 episode 3 (`trakt_id 100`) on the first run; on the second
run that id is in the snapshot, so the `Stage` season/episode scan skips it
*without marking the episode as matched*, fals through to the pure-title
scan, matches the distinct record `"episode 3"` (`trakt_id 200`), and the
second run's add-set is nonempty. -/
theorem c1_idempotence_counterexample :
    let seasons : List SeasonData :=
      [⟨some 1, [⟨some 3, none, strL "Three Kings", some 100⟩,
                 ⟨some 7, none, strL "Episode 3", some 200⟩]⟩]
    let bt := buildByTitle seasons
    let bn := buildByNumber seasons
    let eps : List ScrapedEp := [⟨strL "99", strL "Stage 3"⟩]
    let run1 := classifyRun Mode.hybrid true [] bn bt seasons [] (fun _ _ => 0) eps
    let run2 := classifyRun Mode.hybrid true [] bn bt seasons
      ([] ++ addIdsOf run1) (fun _ _ => 0) eps
    addIdsOf run1 = [100] ∧ toAddOf run2 = [(200, strL "Stage 3")] ∧ toAddOf run2 ≠ [] := by
  decide

/-- **C2 counterexample** — a title containing a sequel marker can still
produce a single-word variation: `"A Shippuden"` is sequel-detected (marker
`" shippuden"`), yet the article-stripping step yields the single word
`"shippuden"`, which is kept as a variation. -/
theorem c2_single_word_counterexample :
    (findIndicator sequelIndicators (cleanOf (strL "A Shippuden"))).isSome = true ∧
    generateVariations (strL "A Shippuden") = [strL "a shippuden", strL "shippuden"] ∧
    ' ' ∉ strL "shippuden" := by decide

/-- **C4** — Batch/backoff bound: under permanent rate limiting the POST is
issued exactly 3 times, the sleeps between attempts last 1 and 2 time units,
and the trace ends with the whole batch marked failed (no 4th attempt).
(A final sleep of 4 units happens after the third attempt, before the loop
exits; it is not between attempts.) -/
theorem c4_backoff_bound (respond : Nat → RespStatus) (batch : List (Nat × Str))
    (h : ∀ n, respond n = RespStatus.rateLimited429) :
    postCount (runBatch respond batch) = 3 ∧
    sleepsBetweenPosts (runBatch respond batch) = [1, 2] ∧
    (runBatch respond batch).getLast? = some (.failedExhausted batch) := by
  have htrace : runBatch respond batch =
      [.post, .sleepEv 1, .post, .sleepEv 2, .post, .sleepEv 4, .failedExhausted batch] := by
    simp only [runBatch, batchTries, h]
    norm_num
  refine ⟨?_, ?_, ?_⟩
  · rw [htrace]; simp [postCount, isPost]
  · rw [htrace]
    simp [sleepsBetweenPosts, isPost, List.dropWhile, sleepDur]
  · rw [htrace]; simp

/-- Witness for C4 at the constant rate-limited oracle and a one-element
batch. -/
theorem c4_backoff_bound_witness :
    postCount (runBatch (fun _ => RespStatus.rateLimited429) [(1, strL "a")]) = 3 ∧
    sleepsBetweenPosts (runBatch (fun _ => RespStatus.rateLimited429) [(1, strL "a")]) = [1, 2] ∧
    (runBatch (fun _ => RespStatus.rateLimited429) [(1, strL "a")]).getLast? =
      some (.failedExhausted [(1, strL "a")]) :=
  c4_backoff_bound (fun _ => RespStatus.rateLimited429) [(1, strL "a")] (fun _ => rfl)

/-- **C5** — Number-first precedence: in hybrid mode, as soon as the
absolute-number lookup (direct or digit-stripped) hits, the outcome is the
number-based record — the right-hand side mentions neither the title
dictionary, the mappings, the season data nor the similarity function, so
the title/special-pattern/fuzzy tiers are never consulted. -/
theorem c5_number_first (sa : Bool) (sm : List (Str × Str)) (bn bt : List (Str × EpInfo))
    (seasons : List SeasonData) (existing : List Nat) (sim : Str → Str → ℚ)
    (ep : ScrapedEp) (d : EpInfo) (h : numberLookup bn ep.number = some d) :
    processEp Mode.hybrid sa sm bn bt seasons existing sim ep =
      some (if d.traktId ∉ existing
        then .addedO d.traktId (if sa then handleSpecial ep else ep).name
        else .skippedO d.traktId ep.number) := by
  have hnum : (if sa then handleSpecial ep else ep).number = ep.number := by
    cases sa <;> simp [handleSpecial_number]
  unfold processEp numberBranch
  simp only [hnum, h, or_true, if_true]
  simp [classifySnap]

/-- Witness for C5: a concrete hybrid run where the number lookup hits. -/
theorem c5_number_first_witness :
    processEp Mode.hybrid false [] [(strL "1", ⟨none, none, 5⟩)] [] [] [] (fun _ _ => 0)
      ⟨strL "1", strL "E"⟩ = some (.addedO 5 (strL "E")) := by
  have := c5_number_first false [] [(strL "1", ⟨none, none, 5⟩)] [] [] [] (fun _ _ => 0)
    ⟨strL "1", strL "E"⟩ ⟨none, none, 5⟩ (by decide)
  simpa using this


theorem c3_show_accept_aux (sim : Str → Str → ℚ)
    (h : sim (strL "wxyz") (strL "abcd") = 7/10) :
    findBestAnimeMatch sim (strL "abcd") [strL "wxyz"] = some (strL "wxyz") := by
  have hb : bestScoreFor sim (strL "wxyz") [strL "abcd"] = 7/10 := by
    simp only [bestScoreFor, List.foldl_cons, List.foldl_nil]
    split
    · rename_i hcond; exact absurd hcond (by decide)
    · rw [h]; norm_num
  have hone : [strL "wxyz"].map (fun n => (n, pyReplace (strL "-") (strL " ") n)) =
      [(strL "wxyz", strL "wxyz")] := rfl
  have hfind : List.find? (fun p => decide (cleanOf p.2 = cleanOf (strL "abcd")))
      [(strL "wxyz", strL "wxyz")] = none := rfl
  have hvars : generateVariations (strL "abcd") = [strL "abcd"] := rfl
  have hsort : stableSortBy (fun a b : Str => decide (b.length < a.length)) [strL "abcd"] =
      [strL "abcd"] := rfl
  have hstep2 : step2Scan sim (lowerStr (strL "abcd")) [(strL "wxyz", strL "wxyz")]
      [strL "abcd"] = none := rfl
  simp only [findBestAnimeMatch, hone, hfind, hvars, hsort, hstep2]
  simp only [List.filterMap_cons, List.filterMap_nil, hb]
  norm_num [stableSortBy, ordInsertBy]

theorem c3_show_reject_aux (sim : Str → Str → ℚ)
    (h : sim (strL "wxyz") (strL "abcd") = 699/1000) :
    findBestAnimeMatch sim (strL "abcd") [strL "wxyz"] = none := by
  have hb : bestScoreFor sim (strL "wxyz") [strL "abcd"] = 699/1000 := by
    simp only [bestScoreFor, List.foldl_cons, List.foldl_nil]
    split
    · rename_i hcond; exact absurd hcond (by decide)
    · rw [h]; norm_num
  have hone : [strL "wxyz"].map (fun n => (n, pyReplace (strL "-") (strL " ") n)) =
      [(strL "wxyz", strL "wxyz")] := rfl
  have hfind : List.find? (fun p => decide (cleanOf p.2 = cleanOf (strL "abcd")))
      [(strL "wxyz", strL "wxyz")] = none := rfl
  have hvars : generateVariations (strL "abcd") = [strL "abcd"] := rfl
  have hsort : stableSortBy (fun a b : Str => decide (b.length < a.length)) [strL "abcd"] =
      [strL "abcd"] := rfl
  have hstep2 : step2Scan sim (lowerStr (strL "abcd")) [(strL "wxyz", strL "wxyz")]
      [strL "abcd"] = none := rfl
  simp only [findBestAnimeMatch, hone, hfind, hvars, hsort, hstep2]
  simp only [List.filterMap_cons, List.filterMap_nil, hb]
  norm_num [stableSortBy, ordInsertBy]

theorem c3_fuzzy_reject_aux (sim : Str → Str → ℚ)
    (h : sim (strL "q") (strL "zz") = 85/100) :
    processEp Mode.title false [] [] [(strL "zz", ⟨none, none, 7⟩)] [] [] sim
      ⟨strL "9", strL "Q"⟩ = some (.failedO ⟨strL "9", strL "Q"⟩) := by
  have hnorm : normalizeTitle (mappedTitleOf [] (lowerStr (strL "Q"))) = strL "q" := rfl
  have hf : fuzzyBest sim (strL "q") [(strL "zz", ⟨none, none, 7⟩)] =
      (none, 85/100) := by
    simp only [fuzzyBest, List.foldl_cons, List.foldl_nil]
    rw [h]
    norm_num
  simp only [processEp, titleBranch, Bool.false_eq_true, if_false, true_or, if_true]
  rw [show numberBranch Mode.title [] [] ⟨strL "9", strL "Q"⟩ = none from rfl]
  simp only [hnorm]
  rw [show dictGet [(strL "zz", (⟨none, none, 7⟩ : EpInfo))]
      (mappedTitleOf [] (lowerStr (strL "Q"))) = none from rfl]
  rw [show dictGet [(strL "zz", (⟨none, none, 7⟩ : EpInfo))] (strL "q") = none from rfl]
  rw [show geassBranch false [] [(strL "zz", (⟨none, none, 7⟩ : EpInfo))] [] (strL "Q") = none
      from rfl]
  rw [hf]

theorem c3_fuzzy_accept_aux (sim : Str → Str → ℚ)
    (h : sim (strL "q") (strL "zz") = 851/1000) :
    processEp Mode.title false [] [] [(strL "zz", ⟨none, none, 7⟩)] [] [] sim
      ⟨strL "9", strL "Q"⟩ = some (.addedO 7 (strL "Q")) := by
  have hnorm : normalizeTitle (mappedTitleOf [] (lowerStr (strL "Q"))) = strL "q" := rfl
  have hf : fuzzyBest sim (strL "q") [(strL "zz", ⟨none, none, 7⟩)] =
      (some (strL "zz", ⟨none, none, 7⟩), 851/1000) := by
    simp only [fuzzyBest, List.foldl_cons, List.foldl_nil]
    rw [h]
    norm_num
  simp only [processEp, titleBranch, Bool.false_eq_true, if_false, true_or, if_true]
  rw [show numberBranch Mode.title [] [] ⟨strL "9", strL "Q"⟩ = none from rfl]
  simp only [hnorm]
  rw [show dictGet [(strL "zz", (⟨none, none, 7⟩ : EpInfo))]
      (mappedTitleOf [] (lowerStr (strL "Q"))) = none from rfl]
  rw [show dictGet [(strL "zz", (⟨none, none, 7⟩ : EpInfo))] (strL "q") = none from rfl]
  rw [show geassBranch false [] [(strL "zz", (⟨none, none, 7⟩ : EpInfo))] [] (strL "Q") = none
      from rfl]
  rw [hf]
  simp [classifySnap]

/-- **C3** — Threshold boundaries.  Show resolution accepts a candidate whose
best score is exactly 0.70 (`best_score >= threshold`) and rejects 0.699; the
episode fuzzy fallback rejects a similarity of exactly 0.85 (the comparison
is strictly greater-than against a running best initialized to 0.85) and
accepts 0.851. -/
theorem c3_threshold_boundaries :
    (∀ sim : Str → Str → ℚ, sim (strL "wxyz") (strL "abcd") = 7/10 →
      findBestAnimeMatch sim (strL "abcd") [strL "wxyz"] = some (strL "wxyz")) ∧
    (∀ sim : Str → Str → ℚ, sim (strL "wxyz") (strL "abcd") = 699/1000 →
      findBestAnimeMatch sim (strL "abcd") [strL "wxyz"] = none) ∧
    (∀ sim : Str → Str → ℚ, sim (strL "q") (strL "zz") = 85/100 →
      processEp Mode.title false [] [] [(strL "zz", ⟨none, none, 7⟩)] [] [] sim
        ⟨strL "9", strL "Q"⟩ = some (.failedO ⟨strL "9", strL "Q"⟩)) ∧
    (∀ sim : Str → Str → ℚ, sim (strL "q") (strL "zz") = 851/1000 →
      processEp Mode.title false [] [] [(strL "zz", ⟨none, none, 7⟩)] [] [] sim
        ⟨strL "9", strL "Q"⟩ = some (.addedO 7 (strL "Q"))) :=
  ⟨c3_show_accept_aux, c3_show_reject_aux, c3_fuzzy_reject_aux, c3_fuzzy_accept_aux⟩

/-- Witness for C3 at constant similarity functions. -/
theorem c3_threshold_boundaries_witness :
    findBestAnimeMatch (fun _ _ => (7:ℚ)/10) (strL "abcd") [strL "wxyz"] =
      some (strL "wxyz") ∧
    findBestAnimeMatch (fun _ _ => (699:ℚ)/1000) (strL "abcd") [strL "wxyz"] = none ∧
    processEp Mode.title false [] [] [(strL "zz", ⟨none, none, 7⟩)] [] []
      (fun _ _ => (85:ℚ)/100) ⟨strL "9", strL "Q"⟩ =
        some (.failedO ⟨strL "9", strL "Q"⟩) ∧
    processEp Mode.title false [] [] [(strL "zz", ⟨none, none, 7⟩)] [] []
      (fun _ _ => (851:ℚ)/1000) ⟨strL "9", strL "Q"⟩ = some (.addedO 7 (strL "Q")) :=
  ⟨c3_threshold_boundaries.1 _ rfl, c3_threshold_boundaries.2.1 _ rfl,
   c3_threshold_boundaries.2.2.1 _ rfl, c3_threshold_boundaries.2.2.2 _ rfl⟩

/-- **C8** (amended) — Normalization stability on part-stable strings: the
normalizer is idempotent on every input whose normalized form is left
unchanged by the `part\s+(\d+)` rewrite.  On such an output every pipeline
stage acts as the identity: all characters are lower-case word characters or
single interior spaces, no `(` survives the punctuation pass, no
`digit·x·digit` seed survives the `NxNN` deletion, no stop-word run survives
the stop-word pass, and the whitespace is already collapsed and stripped.
(It is not idempotent in general — see `c8_not_idempotent`.) -/
theorem c8_idempotent_on_part_stable (s : Str)
    (hp : partSub (normalizeTitle s) = normalizeTitle s) :
    normalizeTitle (normalizeTitle s) = normalizeTitle s := by
  have h1 : subPunct (normalizeTitle s) = normalizeTitle s :=
    subPunct_id (fun c hc => (normalizeTitle_inert s c hc).1)
  have h2 : lowerStr (normalizeTitle s) = normalizeTitle s :=
    lowerStr_id (fun c hc => (normalizeTitle_inert s c hc).2)
  have hnp : '(' ∉ normalizeTitle s := by
    intro hmem
    rcases (normalizeTitle_inert s '(' hmem).1 with h4 | h4 <;> exact absurd h4 (by decide)
  have h3 : parenNumSub (normalizeTitle s) = normalizeTitle s := parenNumSubAux_id _ hnp
  have h4 : dxdSub (normalizeTitle s) = normalizeTitle s :=
    noSeed_dxdSubAux_id _ (normalizeTitle_noSeed s)
  have h5 : parenDropSub (normalizeTitle s) = normalizeTitle s := parenDropSubAux_id _ hnp
  have h6a : dropWordRun (strL "episode") (normalizeTitle s) = normalizeTitle s :=
    dropWordRun_id_of (normalizeTitle s).length le_rfl
      (normalizeTitle_noRun s _ (Or.inl rfl))
  have h6b : dropWordRun (strL "ep") (normalizeTitle s) = normalizeTitle s :=
    dropWordRun_id_of (normalizeTitle s).length le_rfl
      (normalizeTitle_noRun s _ (Or.inr (Or.inl rfl)))
  have h6c : dropWordRun (strL "the") (normalizeTitle s) = normalizeTitle s :=
    dropWordRun_id_of (normalizeTitle s).length le_rfl
      (normalizeTitle_noRun s _ (Or.inr (Or.inr (Or.inl rfl))))
  have h6d : dropWordRun (strL "and") (normalizeTitle s) = normalizeTitle s :=
    dropWordRun_id_of (normalizeTitle s).length le_rfl
      (normalizeTitle_noRun s _ (Or.inr (Or.inr (Or.inr rfl))))
  have hteq : normalizeTitle s =
      stripWs (collapseWs (dropWordRun (strL "and") (dropWordRun (strL "the")
        (dropWordRun (strL "ep") (dropWordRun (strL "episode")
          (parenDropSub (dxdSub (parenNumSub (partSub (lowerStr (subPunct s))))))))))) := rfl
  have h78 := stripCollapse_idem (dropWordRun (strL "and") (dropWordRun (strL "the")
    (dropWordRun (strL "ep") (dropWordRun (strL "episode")
      (parenDropSub (dxdSub (parenNumSub (partSub (lowerStr (subPunct s))))))))))
  have h7 : collapseWs (normalizeTitle s) = normalizeTitle s := by
    rw [hteq]
    exact h78.1
  have h8 : stripWs (normalizeTitle s) = normalizeTitle s := by
    rw [hteq]
    exact h78.2
  show stripWs (collapseWs (dropWordRun (strL "and") (dropWordRun (strL "the")
      (dropWordRun (strL "ep") (dropWordRun (strL "episode")
        (parenDropSub (dxdSub (parenNumSub (partSub
          (lowerStr (subPunct (normalizeTitle s)))))))))))) = normalizeTitle s
  rw [h1, h2, hp, h3, h4, h5, h6a, h6b, h6c, h6d, h7, h8]

/-- Witness for `c8_idempotent_on_part_stable` at the title `"Hello World"`,
whose normalized form `"hello world"` is part-stable. -/
theorem c8_idempotent_on_part_stable_witness :
    partSub (normalizeTitle (strL "Hello World")) = normalizeTitle (strL "Hello World") ∧
    normalizeTitle (normalizeTitle (strL "Hello World")) =
      normalizeTitle (strL "Hello World") :=
  ⟨by decide, c8_idempotent_on_part_stable _ (by decide)⟩

/-- **C2** (amended) — Sequel non-collapse: resolving `"Naruto Shippuden"`
against `["naruto", "naruto-shippuden"]` returns `"naruto-shippuden"` for
every similarity function (tier 1 matches the dash-normalized display name
exactly), and for every title carrying a sequel indicator the variation
generator never emits the bare base name (the text before the indicator,
stripped): the sequel branch skips the colon/word-count variations, and each
remaining variation provably differs from the base name.  The claim's other
half — that no single-word variation is ever generated for sequels — is
false: see `c2_single_word_counterexample`. -/
theorem c2_sequel_resolution :
    (∀ sim : Str → Str → ℚ, findBestAnimeMatch sim (strL "Naruto Shippuden")
        [strL "naruto", strL "naruto-shippuden"] = some (strL "naruto-shippuden")) ∧
    (∀ (t ind : Str) (idx : Nat),
      findIndicator sequelIndicators (cleanOf t) = some (ind, idx) →
      baseAnimeOf (cleanOf t) ∉ generateVariations t) := by
  constructor
  · intro sim
    rfl
  · intro t ind idx hf hmem
    obtain ⟨hindmem, hfind⟩ := findIndicator_eq hf
    obtain ⟨pre, rest, hdec, hlen⟩ := pyFind_decomp hfind
    have hbase : baseAnimeOf (cleanOf t) = stripWs pre := by
      unfold baseAnimeOf
      rw [hf]
      show stripWs ((cleanOf t).take idx) = stripWs pre
      congr 1
      rw [hdec, ← hlen, List.append_assoc, List.take_left]
    rw [hbase] at hmem
    rcases generateVariations_mem_sequel hf hmem with h1 | h1 | h1 | h1
    · have hc := c2_base_census hdec hindmem
      rw [h1] at hc
      exact absurd hc (lt_irrefl _)
    · have hc := c2_base_census hdec hindmem
      rw [h1, countP_sequelName] at hc
      exact absurd hc (lt_irrefl _)
    · have hc := c2_base_census hdec hindmem
      rw [h1, countP_articleStrip] at hc
      exact absurd hc (lt_irrefl _)
    · rw [hdec] at h1
      exact c2_keywords_ne_base hindmem h1.symm

/-- Witness for `c2_sequel_resolution`: the resolution example, and the
sequel title `"Naruto Shippuden"`, whose base name `"naruto"` is not among
its generated variations. -/
theorem c2_sequel_resolution_witness :
    findBestAnimeMatch (fun _ _ => 0) (strL "Naruto Shippuden")
      [strL "naruto", strL "naruto-shippuden"] = some (strL "naruto-shippuden") ∧
    findIndicator sequelIndicators (cleanOf (strL "Naruto Shippuden")) =
      some (strL " shippuden", 6) ∧
    baseAnimeOf (cleanOf (strL "Naruto Shippuden")) = strL "naruto" ∧
    strL "naruto" ∉ generateVariations (strL "Naruto Shippuden") := by
  refine ⟨c2_sequel_resolution.1 (fun _ _ => 0), by decide, by decide, ?_⟩
  have h := c2_sequel_resolution.2 (strL "Naruto Shippuden") (strL " shippuden") 6
    (by decide)
  have hb : baseAnimeOf (cleanOf (strL "Naruto Shippuden")) = strL "naruto" := by
    decide
  rw [hb] at h
  exact h

end Dakosys
